import Mathlib

/-! Adjacency-matrix graphs of `graph.hpp` and vector helpers of `vector_manipulation.hpp`.

A shallow embedding of the classes `aux::AMGraph`, `aux::AMUndirectedGraph`,
`aux::AMDirectedGraph`, of the free functions that transform them, and of the functions
`utils::getVectorMaxMin`, `utils::vectorNormalization` and `utils::euclidianDistance`.

* `std::vector<std::vector<GridT>>` is a `List (List GridT)`, `std::size_t` is `Nat`.
* A member function that can throw returns an `Exec`: the object after the call together
  with the way the call ended.  An unchecked `operator[]` outside the vector is undefined
  behaviour in the source; reads give `none` and writes give `Exec.undefined` there.
* `double` is taken in exact arithmetic: a rational, or the non-finite result of a
  division by zero.
-/

set_option autoImplicit false

namespace aux

/-! ## Outcomes -/

/-- How a call ends: normally, by a `throw` (the message and the object as the throw left
it), or in undefined behaviour. -/
inductive Exec (σ : Type) where
  | done (s : σ)
  | thrown (msg : String) (s : σ)
  | undefined
  deriving DecidableEq, Repr

namespace Exec

variable {σ : Type}

/-- Sequencing of two statements on the same object: the second runs only when the first
ended normally. -/
def andThen (r : Exec σ) (f : σ → Exec σ) : Exec σ :=
  match r with
  | done s => f s
  | thrown msg s => thrown msg s
  | undefined => undefined

/-- The object a caller that catches the exception goes on with. -/
def state? : Exec σ → Option σ
  | done s => some s
  | thrown _ s => some s
  | undefined => none

/-- Whether the call ended by a `throw`. -/
def failed : Exec σ → Bool
  | thrown _ _ => true
  | _ => false

end Exec

/-! ## Vectors -/

section Vectors

variable {α : Type}

/-- `std::vector::resize(n)`: keeps the first `n` elements and pads with
value-initialised ones. -/
def vecResize (v : List α) (n : Nat) (fill : α) : List α :=
  v.take n ++ List.replicate (n - v.length) fill

/-- `v[i] = f(v[i])` for an index inside the vector. -/
def vecModify : List α → Nat → (α → α) → List α
  | [], _, _ => []
  | x :: xs, 0, f => f x :: xs
  | x :: xs, i + 1, f => x :: vecModify xs i f

/-- The read `graph[i][j]`; `none` outside the vectors. -/
def readCell (gr : List (List α)) (i j : Nat) : Option α :=
  match gr[i]? with
  | none => none
  | some row => row[j]?

/-- The write `graph[i][j] = v`; `none` outside the vectors. -/
def writeCell (gr : List (List α)) (i j : Nat) (v : α) : Option (List (List α)) :=
  match gr[i]? with
  | none => none
  | some row => if j < row.length then some (gr.set i (row.set j v)) else none

/-- The compound assignment `graph[i][j] += v`; `none` outside the vectors. -/
def addCell [Add α] (gr : List (List α)) (i j : Nat) (v : α) : Option (List (List α)) :=
  match readCell gr i j with
  | none => none
  | some old => writeCell gr i j (old + v)

end Vectors

/-! ## The base class -/

/-- The data members of `AMGraph<GridT>`; the two derived classes add none. -/
structure AMGraph (GridT : Type) where
  graph : List (List GridT)
  size : Nat
  deriving DecidableEq, Repr

/-- The text of the exception of the checked writes. -/
def edgeError (size i_from i_to : Nat) : String :=
  "Failed to add edge: graph of size " ++ toString size ++
    " can't insert connection " ++ toString i_from ++ "->" ++ toString i_to

namespace AMGraph

variable {GridT : Type}

/-- The matrix has `size` rows of `size` columns. -/
def Square (g : AMGraph GridT) : Prop :=
  g.graph.length = g.size ∧ ∀ row ∈ g.graph, row.length = g.size

instance (g : AMGraph GridT) : Decidable g.Square := by
  unfold Square; infer_instance

/-- `AMGraph::setEdge`. -/
def setEdge (g : AMGraph GridT) (i_from i_to : Nat) (val : GridT) : Exec (AMGraph GridT) :=
  if i_from < g.size ∧ i_to < g.size then
    match writeCell g.graph i_from i_to val with
    | some gr => .done { g with graph := gr }
    | none => .undefined
  else
    .thrown (edgeError g.size i_from i_to) g

/-- `AMGraph::getSize`. -/
def getSize (g : AMGraph GridT) : Nat :=
  g.size

/-- The inner loop of `resize`: `graph[i][j] = 0` for `j < size`. -/
def zeroRow [Zero GridT] (size i : Nat) (gr : List (List GridT)) : List (List GridT) :=
  (List.range size).foldl (fun acc j => vecModify acc i (fun row => row.set j 0)) gr

/-- The body of the outer loop of `resize`. -/
def resizeRow [Zero GridT] (size : Nat) (gr : List (List GridT)) (i : Nat) :
    List (List GridT) :=
  zeroRow size i (vecModify gr i (fun row => vecResize row size 0))

/-- `AMGraph::resize`. -/
def resize [Zero GridT] (g : AMGraph GridT) (graph_size : Nat) : AMGraph GridT :=
  let size := graph_size
  let graph := vecResize g.graph size []
  { graph := (List.range size).foldl (resizeRow size) graph, size := size }

/-- The constructor `AMGraph(graph_size)`: `resize` on the empty vector. -/
def new [Zero GridT] (graph_size : Nat) : AMGraph GridT :=
  resize { graph := [], size := 0 } graph_size

/-- `AMGraph::get`. -/
def get (g : AMGraph GridT) (i j : Nat) : Option GridT :=
  readCell g.graph i j

/-- The values held by the `size * size` cells of the matrix. -/
def cells (g : AMGraph GridT) : Set GridT :=
  {v | ∃ i j, i < g.size ∧ j < g.size ∧ g.get i j = some v}

end AMGraph

/-! ## The undirected graph -/

namespace AMUndirectedGraph

variable {GridT : Type}

/-- `AMUndirectedGraph::setEdge`. -/
def setEdge (g : AMGraph GridT) (i j : Nat) (val : GridT) : Exec (AMGraph GridT) :=
  if i < g.size ∧ j < g.size then
    match (writeCell g.graph i j val).bind (fun gr => writeCell gr j i val) with
    | some gr => .done { g with graph := gr }
    | none => .undefined
  else
    .thrown (edgeError g.size i j) g

/-- `AMUndirectedGraph::addToEdge`. -/
def addToEdge [Add GridT] (g : AMGraph GridT) (i j : Nat) (val : GridT) :
    Exec (AMGraph GridT) :=
  if i < g.size ∧ j < g.size then
    match (addCell g.graph i j val).bind (fun gr => addCell gr j i val) with
    | some gr => .done { g with graph := gr }
    | none => .undefined
  else
    .thrown (edgeError g.size i j) g

/-- The inner loop of `getGraphDegree`: the cells of a row that differ from
`notEdgeVal`. -/
def lineDegree [DecidableEq GridT] (notEdgeVal : GridT) (line : List GridT) : Nat :=
  line.foldl (fun degree cost => if cost ≠ notEdgeVal then degree + 1 else degree) 0

/-- `AMUndirectedGraph::getGraphDegree`; the result is the vector `degrees` after the
call. -/
def getGraphDegree [DecidableEq GridT] (g : AMGraph GridT) (degrees : List Nat)
    (notEdgeVal : GridT) : List Nat :=
  g.graph.foldl (fun acc line => acc ++ [lineDegree notEdgeVal line]) degrees

/-- A call of one of the mutating member functions of an undirected graph. -/
inductive Call (GridT : Type) where
  | setEdge (i j : Nat) (val : GridT)
  | addToEdge (i j : Nat) (val : GridT)
  | resize (graph_size : Nat)

/-- The outcome of one call. -/
def call [Zero GridT] [Add GridT] (g : AMGraph GridT) : Call GridT → Exec (AMGraph GridT)
  | .setEdge i j val => setEdge g i j val
  | .addToEdge i j val => addToEdge g i j val
  | .resize graph_size => .done (g.resize graph_size)

/-- The object after a sequence of calls whose exceptions the caller catches; `none` when a
call runs into undefined behaviour. -/
def run [Zero GridT] [Add GridT] (g : AMGraph GridT) : List (Call GridT) →
    Option (AMGraph GridT)
  | [] => some g
  | c :: cs =>
    match (call g c).state? with
    | none => none
    | some g' => run g' cs

end AMUndirectedGraph

/-! ## The directed graph -/

namespace AMDirectedGraph

variable {GridT : Type}

/-- `AMDirectedGraph::addToEdge`. -/
def addToEdge [Add GridT] (g : AMGraph GridT) (i_from i_to : Nat) (val : GridT) :
    Exec (AMGraph GridT) :=
  if i_from < g.size ∧ i_to < g.size then
    match addCell g.graph i_from i_to val with
    | some gr => .done { g with graph := gr }
    | none => .undefined
  else
    .thrown (edgeError g.size i_from i_to) g

end AMDirectedGraph

/-! ## Calls on a graph of any of the three classes -/

/-- A call of one of the mutating member functions of the three classes: the base
`setEdge` (also reached through a reference to the base class), the `setEdge` and
`addToEdge` of the undirected graph, the `addToEdge` of the directed graph, `resize`. -/
inductive GraphCall (GridT : Type) where
  | setEdge (i_from i_to : Nat) (val : GridT)
  | undirectedSetEdge (i j : Nat) (val : GridT)
  | undirectedAddToEdge (i j : Nat) (val : GridT)
  | directedAddToEdge (i_from i_to : Nat) (val : GridT)
  | resize (graph_size : Nat)

/-- The outcome of one call. -/
def graphCall {GridT : Type} [Zero GridT] [Add GridT] (g : AMGraph GridT) :
    GraphCall GridT → Exec (AMGraph GridT)
  | .setEdge i_from i_to val => g.setEdge i_from i_to val
  | .undirectedSetEdge i j val => AMUndirectedGraph.setEdge g i j val
  | .undirectedAddToEdge i j val => AMUndirectedGraph.addToEdge g i j val
  | .directedAddToEdge i_from i_to val => AMDirectedGraph.addToEdge g i_from i_to val
  | .resize graph_size => .done (g.resize graph_size)

/-- The object after a sequence of calls whose exceptions the caller catches; `none` when a
call runs into undefined behaviour. -/
def runCalls {GridT : Type} [Zero GridT] [Add GridT] (g : AMGraph GridT) :
    List (GraphCall GridT) → Option (AMGraph GridT)
  | [] => some g
  | c :: cs =>
    match (graphCall g c).state? with
    | none => none
    | some g' => runCalls g' cs

/-! ## Loops -/

section Loops

variable {σ : Type}

/-- The loop `for (i = 0; i < n; i++)` over a body that may read outside a vector. -/
def forOpt (n : Nat) (body : Nat → σ → Option σ) (s : σ) : Option σ :=
  (List.range n).foldl (fun acc i => acc.bind (body i)) (some s)

/-- The loop `for (i = 0; i < n; i++)` over a body that may throw. -/
def forExec (n : Nat) (body : Nat → σ → Exec σ) (s : σ) : Exec σ :=
  (List.range n).foldl (fun acc i => acc.andThen (body i)) (.done s)

end Loops

/-! ## The transforms -/

/-- A `double` in exact arithmetic: a rational, or what a division by zero leaves. -/
inductive Double where
  | finite (q : ℚ)
  | nonfinite
  deriving DecidableEq

instance : Zero Double := ⟨.finite 0⟩

/-- The quotient of two `double`s that hold rationals. -/
def Double.div (a b : ℚ) : Double :=
  if b = 0 then .nonfinite else .finite (a / b)

section Transforms

variable {T : Type} [LinearOrder T]

/-- The body of the first pair of loops of `normalizeGraphMaxMin`, on the pair
`(max, min)`. -/
def scanCell (graph : AMGraph T) (i j : Nat) (acc : T × T) : Option (T × T) :=
  match graph.get i j with
  | none => none
  | some val => some (if acc.1 < val then val else acc.1, if acc.2 > val then val else acc.2)

/-- The pair `(max, min)` holds values of the matrix and bounds the rows below `k`. -/
def ScanRows (graph : AMGraph T) (k : Nat) (acc : T × T) : Prop :=
  acc.1 ∈ graph.cells ∧ acc.2 ∈ graph.cells ∧
    ∀ a b v, a < k → b < graph.size → graph.get a b = some v → acc.2 ≤ v ∧ v ≤ acc.1

/-- The pair `(max, min)` moreover bounds the first `j` cells of row `k`. -/
def ScanRow (graph : AMGraph T) (k j : Nat) (acc : T × T) : Prop :=
  ScanRows graph k acc ∧ ∀ b v, b < j → graph.get k b = some v → acc.2 ≤ v ∧ v ≤ acc.1

/-- The body of the second pair of loops of `normalizeGraphMaxMin`. -/
def normCell [Sub T] (toDouble : T → ℚ) (graph : AMGraph T) (max min : T) (i j : Nat)
    (out_graph : AMGraph Double) : Exec (AMGraph Double) :=
  match graph.get i j with
  | none => .undefined
  | some val =>
    let norm := Double.div (toDouble (val - min)) (toDouble (max - min))
    out_graph.setEdge i j norm

/-- `normalizeGraphMaxMin`; `toDouble` is the conversion `(double)` of the element type. -/
def normalizeGraphMaxMin [Sub T] (toDouble : T → ℚ) (out_graph : AMGraph Double)
    (graph : AMGraph T) : Exec (AMGraph Double) :=
  match graph.get 0 0 with
  | none => .undefined
  | some first =>
    let size := graph.getSize
    let out := out_graph.resize size
    match forOpt size (fun i => forOpt size (fun j => scanCell graph i j)) (first, first) with
    | none => .undefined
    | some (max, min) =>
      forExec size (fun i => forExec size (fun j => normCell toDouble graph max min i j)) out

/-- The body of the loops of `segmentGraphEdgesBoolean`. -/
def segmentCell (graph : AMGraph T) (inf_lim sup_lim : T) (i j : Nat)
    (out_graph : AMGraph Bool) : Exec (AMGraph Bool) :=
  match graph.get i j with
  | none => .undefined
  | some val =>
    if val ≥ inf_lim ∧ val ≤ sup_lim then out_graph.setEdge i j true else .done out_graph

/-- `segmentGraphEdgesBoolean`; the zero of `bool` is `false`. -/
def segmentGraphEdgesBoolean (out_graph : AMGraph Bool) (graph : AMGraph T)
    (inf_lim sup_lim : T) : Exec (AMGraph Bool) :=
  let size := graph.getSize
  let out := out_graph.resize size
  forExec size (fun i => forExec size (fun j => segmentCell graph inf_lim sup_lim i j)) out

end Transforms

end aux

/-! ## The vector helpers of `vector_manipulation.hpp` -/

namespace utils

open aux

section VectorHelpers

variable {T : Type}

/-- `getVectorMaxMin`, returning the pair `(max, min)`; `lowest` and `highest` stand for
`std::numeric_limits<T>::min()` and `std::numeric_limits<T>::max()`. -/
def getVectorMaxMin [LinearOrder T] (lowest highest : T) (v : List T) : T × T :=
  v.foldl
    (fun acc elem =>
      (if acc.1 < elem then elem else acc.1, if acc.2 > elem then elem else acc.2))
    (lowest, highest)

/-- The body of the loop of the two-vector `euclidianDistance`; `addPow d x` stands for
`d + pow(x, 2)` converted back to `T`. -/
def distanceStep [Sub T] (addPow : T → T → T) (v1 v2 : List T) (i : Nat) (dist : T) :
    Exec T :=
  match v1[i]?, v2[i]? with
  | some a, some b => .done (addPow dist (a - b))
  | _, _ => .undefined

/-- The two-vector `euclidianDistance`, on the output parameter `dist`; `sqrt` stands for the
library function followed by the conversion to `T`. -/
def euclidianDistance [Zero T] [Sub T] (addPow : T → T → T) (sqrt : T → T) (dist : T)
    (v1 v2 : List T) : Exec T :=
  let size := v1.length
  if size ≠ v2.length then
    .thrown "v1 and v2 must have the same size" dist
  else
    (forExec size (distanceStep addPow v1 v2) 0).andThen (fun d => .done (sqrt d))

end VectorHelpers

end utils

namespace aux

/-! ## Lemmas on vectors -/

section VectorLemmas

variable {α : Type}

theorem length_vecResize (v : List α) (n : Nat) (fill : α) :
    (vecResize v n fill).length = n := by
  simp only [vecResize, List.length_append, List.length_take, List.length_replicate]
  omega

theorem length_vecModify (l : List α) (i : Nat) (f : α → α) :
    (vecModify l i f).length = l.length := by
  induction l generalizing i with
  | nil => rfl
  | cons x xs ih =>
    cases i with
    | zero => rfl
    | succ k => simp [vecModify, ih]

theorem getElem?_vecModify (l : List α) (i k : Nat) (f : α → α) :
    (vecModify l i f)[k]? = if k = i then l[k]?.map f else l[k]? := by
  induction l generalizing i k with
  | nil => simp [vecModify]
  | cons x xs ih =>
    cases i with
    | zero =>
      cases k with
      | zero => simp [vecModify]
      | succ m => simp [vecModify]
    | succ n =>
      cases k with
      | zero => simp [vecModify]
      | succ m => simp [vecModify, ih]

theorem vecModify_vecModify (l : List α) (i : Nat) (f h : α → α) :
    vecModify (vecModify l i f) i h = vecModify l i (fun x => h (f x)) := by
  induction l generalizing i with
  | nil => rfl
  | cons x xs ih =>
    cases i with
    | zero => rfl
    | succ k => simp [vecModify, ih]

/-- Assigning `z` to the first `k` places of a vector, one after the other. -/
theorem getElem?_foldl_set (z : α) (k : Nat) (l : List α) (m : Nat) :
    ((List.range k).foldl (fun r j => r.set j z) l)[m]? =
      if m < k then l[m]?.map (fun _ => z) else l[m]? := by
  induction k generalizing m with
  | zero => simp
  | succ k ih =>
    rw [List.range_succ, List.foldl_append]
    simp only [List.foldl_cons, List.foldl_nil, List.getElem?_set']
    by_cases hkm : k = m
    · subst hkm
      simp [ih]
      rfl
    · have h1 : (m < k + 1) = (m < k) := by
        apply propext; omega
      simp [hkm, ih, h1]

theorem foldl_set_eq_replicate (z : α) (n : Nat) (l : List α) (hl : l.length = n) :
    (List.range n).foldl (fun r j => r.set j z) l = List.replicate n z := by
  apply List.ext_getElem?
  intro m
  rw [getElem?_foldl_set, List.getElem?_replicate]
  by_cases hm : m < n
  · have hm' : m < l.length := by omega
    simp [hm, List.getElem?_eq_getElem hm']
  · have hm' : l.length ≤ m := by omega
    simp [hm, List.getElem?_eq_none hm']

theorem readCell_writeCell {gr gr' : List (List α)} {i j : Nat} {v : α}
    (h : writeCell gr i j v = some gr') (a b : Nat) :
    readCell gr' a b = if a = i ∧ b = j then some v else readCell gr a b := by
  unfold writeCell at h
  cases hrow : gr[i]? with
  | none => simp [hrow] at h
  | some row =>
    simp only [hrow] at h
    split at h
    · rename_i hj
      have hi : i < gr.length := (List.getElem?_eq_some_iff.mp hrow).1
      cases h
      by_cases hai : a = i
      · subst hai
        by_cases hbj : b = j
        · subst hbj
          simp [readCell, hi, hj]
        · simp [readCell, hi, hrow, hbj, List.getElem?_set_ne (Ne.symm hbj)]
      · simp [readCell, hai, List.getElem?_set_ne (Ne.symm hai)]
    · simp at h

theorem readCell_isSome {gr : List (List α)} {n i j : Nat}
    (hlen : gr.length = n) (hrows : ∀ row ∈ gr, row.length = n) (hi : i < n) (hj : j < n) :
    ∃ v, readCell gr i j = some v := by
  have hi' : i < gr.length := by omega
  have hrow : (gr[i]).length = n := hrows _ (List.getElem_mem hi')
  have hj' : j < (gr[i]).length := by omega
  exact ⟨(gr[i])[j], by simp [readCell, List.getElem?_eq_getElem hi', List.getElem?_eq_getElem hj']⟩

theorem writeCell_isSome {gr : List (List α)} {n i j : Nat} (v : α)
    (hlen : gr.length = n) (hrows : ∀ row ∈ gr, row.length = n) (hi : i < n) (hj : j < n) :
    ∃ gr', writeCell gr i j v = some gr' := by
  have hi' : i < gr.length := by omega
  have hrow : (gr[i]).length = n := hrows _ (List.getElem_mem hi')
  refine ⟨gr.set i ((gr[i]).set j v), ?_⟩
  simp [writeCell, List.getElem?_eq_getElem hi', hrow, hj]

theorem writeCell_shape {gr gr' : List (List α)} {n i j : Nat} {v : α}
    (h : writeCell gr i j v = some gr')
    (hlen : gr.length = n) (hrows : ∀ row ∈ gr, row.length = n) :
    gr'.length = n ∧ ∀ row ∈ gr', row.length = n := by
  unfold writeCell at h
  cases hrow : gr[i]? with
  | none => simp [hrow] at h
  | some row =>
    simp only [hrow] at h
    split at h
    · cases h
      have hmem : row ∈ gr := List.getElem?_mem hrow
      refine ⟨by simpa using hlen, ?_⟩
      intro r hr
      rcases List.mem_or_eq_of_mem_set hr with hr' | hr'
      · exact hrows r hr'
      · rw [hr', List.length_set]
        exact hrows row hmem
    · simp at h

end VectorLemmas

/-! ## Lemmas on `resize` -/

section ResizeLemmas

theorem vecModify_id {α : Type} (l : List α) (i : Nat) : vecModify l i (fun x => x) = l := by
  induction l generalizing i with
  | nil => rfl
  | cons x xs ih =>
    cases i with
    | zero => rfl
    | succ k => simp [vecModify, ih]

theorem foldl_vecModify_set {α : Type} (z : α) (i : Nat) (js : List Nat)
    (gr : List (List α)) :
    js.foldl (fun acc j => vecModify acc i (fun row => row.set j z)) gr =
      vecModify gr i (fun row => js.foldl (fun r j => r.set j z) row) := by
  induction js generalizing gr with
  | nil => exact (vecModify_id gr i).symm
  | cons j js ih =>
    rw [List.foldl_cons, ih, vecModify_vecModify]
    rfl

variable {GridT : Type} [Zero GridT]

theorem AMGraph.resizeRow_eq (size : Nat) (gr : List (List GridT)) (i : Nat) :
    AMGraph.resizeRow size gr i = vecModify gr i (fun _ => List.replicate size 0) := by
  unfold AMGraph.resizeRow AMGraph.zeroRow
  rw [foldl_vecModify_set, vecModify_vecModify]
  congr 1
  funext row
  exact foldl_set_eq_replicate 0 size _ (length_vecResize row size 0)

theorem AMGraph.getElem?_foldl_resizeRow (n k : Nat) (gr : List (List GridT)) (m : Nat) :
    ((List.range k).foldl (AMGraph.resizeRow n) gr)[m]? =
      if m < k then gr[m]?.map (fun _ => List.replicate n 0) else gr[m]? := by
  induction k generalizing m with
  | zero => simp
  | succ k ih =>
    rw [List.range_succ, List.foldl_append]
    simp only [List.foldl_cons, List.foldl_nil, AMGraph.resizeRow_eq, getElem?_vecModify]
    by_cases hmk : m = k
    · subst hmk
      simp [ih]
    · have h1 : (m < k + 1) = (m < k) := by
        apply propext; omega
      simp [hmk, ih, h1]

/-- The two loops of `resize` leave the `n × n` matrix of zeros, whatever the object held
before. -/
theorem AMGraph.resize_eq (g : AMGraph GridT) (n : Nat) :
    g.resize n = { graph := List.replicate n (List.replicate n 0), size := n } := by
  unfold AMGraph.resize
  simp only [AMGraph.mk.injEq, and_true]
  apply List.ext_getElem?
  intro m
  rw [AMGraph.getElem?_foldl_resizeRow, List.getElem?_replicate]
  have hlen : (vecResize g.graph n []).length = n := length_vecResize _ _ _
  by_cases hm : m < n
  · have hm' : m < (vecResize g.graph n []).length := by omega
    simp [hm, List.getElem?_eq_getElem hm']
  · have hm' : (vecResize g.graph n []).length ≤ m := by omega
    simp [hm, List.getElem?_eq_none hm']

theorem AMGraph.square_resize (g : AMGraph GridT) (n : Nat) : (g.resize n).Square := by
  rw [AMGraph.resize_eq]
  refine ⟨by simp, ?_⟩
  intro row hrow
  rw [List.eq_of_mem_replicate hrow]
  simp

theorem AMGraph.get_resize (g : AMGraph GridT) (n i j : Nat) :
    (g.resize n).get i j = if i < n ∧ j < n then some 0 else none := by
  rw [AMGraph.resize_eq]
  simp only [AMGraph.get, readCell, List.getElem?_replicate]
  by_cases hi : i < n
  · by_cases hj : j < n
    · simp [hi, hj]
    · simp [hi, hj]
      omega
  · simp [hi]

end ResizeLemmas

/-! ## Lemmas on the checked writes -/

section WriteLemmas

variable {GridT : Type}

theorem readCell_addCell [Add GridT] {gr gr' : List (List GridT)} {i j : Nat} {v : GridT}
    (h : addCell gr i j v = some gr') (a b : Nat) :
    readCell gr' a b =
      if a = i ∧ b = j then (readCell gr a b).map (fun old => old + v) else readCell gr a b := by
  unfold addCell at h
  cases hold : readCell gr i j with
  | none => simp [hold] at h
  | some old =>
    simp only [hold] at h
    rw [readCell_writeCell h]
    by_cases hab : a = i ∧ b = j
    · simp [hab, hold]
    · simp [hab]

theorem addCell_isSome [Add GridT] {gr : List (List GridT)} {n i j : Nat} (v : GridT)
    (hlen : gr.length = n) (hrows : ∀ row ∈ gr, row.length = n) (hi : i < n) (hj : j < n) :
    ∃ gr', addCell gr i j v = some gr' := by
  obtain ⟨old, hold⟩ := readCell_isSome hlen hrows hi hj
  obtain ⟨gr', hw⟩ := writeCell_isSome (old + v) hlen hrows hi hj
  exact ⟨gr', by simp [addCell, hold, hw]⟩

theorem addCell_shape [Add GridT] {gr gr' : List (List GridT)} {n i j : Nat} {v : GridT}
    (h : addCell gr i j v = some gr')
    (hlen : gr.length = n) (hrows : ∀ row ∈ gr, row.length = n) :
    gr'.length = n ∧ ∀ row ∈ gr', row.length = n := by
  unfold addCell at h
  cases hold : readCell gr i j with
  | none => simp [hold] at h
  | some old =>
    simp only [hold] at h
    exact writeCell_shape h hlen hrows

theorem AMGraph.get_isSome (g : AMGraph GridT) (hsq : g.Square) (i j : Nat)
    (hi : i < g.size) (hj : j < g.size) : ∃ v, g.get i j = some v :=
  readCell_isSome hsq.1 hsq.2 hi hj

theorem AMGraph.base_setEdge_spec (g : AMGraph GridT) (i j : Nat) (v : GridT)
    (hsq : g.Square) (hi : i < g.size) (hj : j < g.size) :
    ∃ g', g.setEdge i j v = .done g' ∧ g'.size = g.size ∧ g'.Square ∧
      ∀ a b, g'.get a b = if a = i ∧ b = j then some v else g.get a b := by
  obtain ⟨gr', hw⟩ := writeCell_isSome v hsq.1 hsq.2 hi hj
  refine ⟨{ g with graph := gr' }, ?_, rfl, writeCell_shape hw hsq.1 hsq.2, ?_⟩
  · simp [AMGraph.setEdge, hi, hj, hw]
  · intro a b
    exact readCell_writeCell hw a b

theorem AMUndirectedGraph.undirected_setEdge_spec (g : AMGraph GridT) (i j : Nat) (v : GridT)
    (hsq : g.Square) (hi : i < g.size) (hj : j < g.size) :
    ∃ g', AMUndirectedGraph.setEdge g i j v = .done g' ∧ g'.size = g.size ∧ g'.Square ∧
      ∀ a b, g'.get a b =
        if (a = i ∧ b = j) ∨ (a = j ∧ b = i) then some v else g.get a b := by
  obtain ⟨gr1, hw1⟩ := writeCell_isSome v hsq.1 hsq.2 hi hj
  have hs1 := writeCell_shape hw1 hsq.1 hsq.2
  obtain ⟨gr2, hw2⟩ := writeCell_isSome v hs1.1 hs1.2 hj hi
  refine ⟨{ g with graph := gr2 }, ?_, rfl, writeCell_shape hw2 hs1.1 hs1.2, ?_⟩
  · simp [AMUndirectedGraph.setEdge, hi, hj, hw1, hw2]
  · intro a b
    simp only [AMGraph.get]
    rw [readCell_writeCell hw2, readCell_writeCell hw1]
    by_cases h2 : a = j ∧ b = i
    · simp [h2]
    · by_cases h1 : a = i ∧ b = j
      · simp [h1]
      · simp [h1, h2]

theorem AMUndirectedGraph.undirected_addToEdge_spec [Add GridT] (g : AMGraph GridT) (i j : Nat)
    (v : GridT) (hsq : g.Square) (hi : i < g.size) (hj : j < g.size) :
    ∃ g1 g', AMDirectedGraph.addToEdge g i j v = .done g1 ∧
      AMDirectedGraph.addToEdge g1 j i v = .done g' ∧
      AMUndirectedGraph.addToEdge g i j v = .done g' ∧ g'.size = g.size ∧ g'.Square := by
  obtain ⟨gr1, hw1⟩ := addCell_isSome v hsq.1 hsq.2 hi hj
  have hs1 := addCell_shape hw1 hsq.1 hsq.2
  obtain ⟨gr2, hw2⟩ := addCell_isSome v hs1.1 hs1.2 hj hi
  refine ⟨{ g with graph := gr1 }, { g with graph := gr2 }, ?_, ?_, ?_, rfl,
    addCell_shape hw2 hs1.1 hs1.2⟩
  · simp [AMDirectedGraph.addToEdge, hi, hj, hw1]
  · simp [AMDirectedGraph.addToEdge, hi, hj, hw2]
  · simp [AMUndirectedGraph.addToEdge, hi, hj, hw1, hw2]

theorem AMDirectedGraph.directed_addToEdge_spec [Add GridT] (g : AMGraph GridT) (i j : Nat)
    (v : GridT) (hsq : g.Square) (hi : i < g.size) (hj : j < g.size) :
    ∃ g', AMDirectedGraph.addToEdge g i j v = .done g' ∧ g'.size = g.size ∧ g'.Square ∧
      ∀ a b, g'.get a b =
        if a = i ∧ b = j then (g.get a b).map (fun old => old + v) else g.get a b := by
  obtain ⟨gr', hw⟩ := addCell_isSome v hsq.1 hsq.2 hi hj
  refine ⟨{ g with graph := gr' }, ?_, rfl, addCell_shape hw hsq.1 hsq.2, ?_⟩
  · simp [AMDirectedGraph.addToEdge, hi, hj, hw]
  · intro a b
    exact readCell_addCell hw a b

end WriteLemmas

/-! ## The invariant of the undirected graph -/

section UndirectedInvariant

variable {GridT : Type}

theorem AMUndirectedGraph.setEdge_symmetric (g g' : AMGraph GridT) (i j : Nat) (v : GridT)
    (hsym : ∀ a b, g.get a b = g.get b a)
    (hget : ∀ a b, g'.get a b =
      if (a = i ∧ b = j) ∨ (a = j ∧ b = i) then some v else g.get a b) :
    ∀ a b, g'.get a b = g'.get b a := by
  intro a b
  rw [hget a b, hget b a, hsym a b]
  have hc : ((a = i ∧ b = j) ∨ (a = j ∧ b = i)) = ((b = i ∧ a = j) ∨ (b = j ∧ a = i)) := by
    apply propext
    constructor
    · rintro (⟨h1, h2⟩ | ⟨h1, h2⟩)
      · exact Or.inr ⟨h2, h1⟩
      · exact Or.inl ⟨h2, h1⟩
    · rintro (⟨h1, h2⟩ | ⟨h1, h2⟩)
      · exact Or.inr ⟨h2, h1⟩
      · exact Or.inl ⟨h2, h1⟩
  simp only [hc]

theorem AMUndirectedGraph.addToEdge_symmetric [Add GridT] (g g1 g' : AMGraph GridT)
    (i j : Nat) (v : GridT) (hsym : ∀ a b, g.get a b = g.get b a)
    (h1 : ∀ a b, g1.get a b =
      if a = i ∧ b = j then (g.get a b).map (fun old => old + v) else g.get a b)
    (h2 : ∀ a b, g'.get a b =
      if a = j ∧ b = i then (g1.get a b).map (fun old => old + v) else g1.get a b) :
    ∀ a b, g'.get a b = g'.get b a := by
  intro a b
  by_cases hab : a = b
  · rw [hab]
  · rw [h2 a b, h2 b a, h1 a b, h1 b a, hsym a b]
    by_cases hc1 : a = i ∧ b = j
    · have hc2 : ¬(a = j ∧ b = i) := fun h => hab (by rw [h.1, hc1.2])
      have hc3 : b = j ∧ a = i := ⟨hc1.2, hc1.1⟩
      have hc4 : ¬(b = i ∧ a = j) := fun h => hab (by rw [h.2, hc1.2])
      simp only [if_pos hc1, if_neg hc2, if_pos hc3, if_neg hc4]
    · by_cases hc2 : a = j ∧ b = i
      · have hc3 : ¬(b = j ∧ a = i) := fun h => hc1 ⟨h.2, h.1⟩
        have hc4 : b = i ∧ a = j := ⟨hc2.2, hc2.1⟩
        simp only [if_neg hc1, if_pos hc2, if_neg hc3, if_pos hc4]
      · have hc3 : ¬(b = j ∧ a = i) := fun h => hc1 ⟨h.2, h.1⟩
        have hc4 : ¬(b = i ∧ a = j) := fun h => hc2 ⟨h.2, h.1⟩
        simp only [if_neg hc1, if_neg hc2, if_neg hc3, if_neg hc4]

variable [Zero GridT] [Add GridT]

/-- One call keeps the matrix square and symmetric, and does not run into undefined
behaviour. -/
theorem AMUndirectedGraph.call_invariant (g : AMGraph GridT) (c : AMUndirectedGraph.Call GridT)
    (hsq : g.Square) (hsym : ∀ a b, g.get a b = g.get b a) :
    ∃ g', (AMUndirectedGraph.call g c).state? = some g' ∧ g'.Square ∧
      ∀ a b, g'.get a b = g'.get b a := by
  cases c with
  | setEdge i j val =>
    by_cases hij : i < g.size ∧ j < g.size
    · obtain ⟨g', hrun, -, hsq', hget⟩ := AMUndirectedGraph.undirected_setEdge_spec g i j val hsq hij.1 hij.2
      exact ⟨g', by simp [AMUndirectedGraph.call, hrun, Exec.state?], hsq',
        AMUndirectedGraph.setEdge_symmetric g g' i j val hsym hget⟩
    · exact ⟨g, by simp [AMUndirectedGraph.call, AMUndirectedGraph.setEdge, hij, Exec.state?],
        hsq, hsym⟩
  | addToEdge i j val =>
    by_cases hij : i < g.size ∧ j < g.size
    · obtain ⟨g1, g', hd1, hd2, hrun, -, hsq'⟩ :=
        AMUndirectedGraph.undirected_addToEdge_spec g i j val hsq hij.1 hij.2
      obtain ⟨g1', hd1', hsz1, hsq1, hget1⟩ :=
        AMDirectedGraph.directed_addToEdge_spec g i j val hsq hij.1 hij.2
      rw [hd1] at hd1'
      cases hd1'
      obtain ⟨g2', hd2', -, -, hget2⟩ :=
        AMDirectedGraph.directed_addToEdge_spec g1 j i val hsq1 (by omega) (by omega)
      rw [hd2] at hd2'
      cases hd2'
      exact ⟨g', by simp [AMUndirectedGraph.call, hrun, Exec.state?], hsq',
        AMUndirectedGraph.addToEdge_symmetric g g1 g' i j val hsym hget1 hget2⟩
    · exact ⟨g, by simp [AMUndirectedGraph.call, AMUndirectedGraph.addToEdge, hij, Exec.state?],
        hsq, hsym⟩
  | resize graph_size =>
    refine ⟨g.resize graph_size, rfl, AMGraph.square_resize g graph_size, ?_⟩
    intro a b
    rw [AMGraph.get_resize, AMGraph.get_resize]
    simp only [and_comm]

theorem AMUndirectedGraph.run_invariant (g : AMGraph GridT)
    (calls : List (AMUndirectedGraph.Call GridT))
    (hsq : g.Square) (hsym : ∀ a b, g.get a b = g.get b a) :
    ∃ g', AMUndirectedGraph.run g calls = some g' ∧ g'.Square ∧
      ∀ a b, g'.get a b = g'.get b a := by
  induction calls generalizing g with
  | nil => exact ⟨g, rfl, hsq, hsym⟩
  | cons c cs ih =>
    obtain ⟨g1, hcall, hsq1, hsym1⟩ := AMUndirectedGraph.call_invariant g c hsq hsym
    obtain ⟨g', hrun, hsq', hsym'⟩ := ih g1 hsq1 hsym1
    exact ⟨g', by simp [AMUndirectedGraph.run, hcall, hrun], hsq', hsym'⟩

end UndirectedInvariant

/-! ## Failure of the checked writes -/

section Failure

variable {GridT : Type}

theorem AMGraph.base_setEdge_failed (g : AMGraph GridT) (i j : Nat) (v : GridT) :
    ((g.setEdge i j v).failed = true ↔ (g.size ≤ i ∨ g.size ≤ j)) ∧
      ((g.setEdge i j v).failed = true → (g.setEdge i j v).state? = some g) := by
  unfold AMGraph.setEdge
  by_cases hij : i < g.size ∧ j < g.size
  · have hn : ¬(g.size ≤ i ∨ g.size ≤ j) := by omega
    cases hw : writeCell g.graph i j v <;> simp [hij, hw, hn, Exec.failed]
  · have hn : g.size ≤ i ∨ g.size ≤ j := by omega
    simp [hij, hn, Exec.failed, Exec.state?]

theorem AMUndirectedGraph.undirected_setEdge_failed (g : AMGraph GridT) (i j : Nat) (v : GridT) :
    ((AMUndirectedGraph.setEdge g i j v).failed = true ↔ (g.size ≤ i ∨ g.size ≤ j)) ∧
      ((AMUndirectedGraph.setEdge g i j v).failed = true →
        (AMUndirectedGraph.setEdge g i j v).state? = some g) := by
  unfold AMUndirectedGraph.setEdge
  by_cases hij : i < g.size ∧ j < g.size
  · have hn : ¬(g.size ≤ i ∨ g.size ≤ j) := by omega
    cases hw : (writeCell g.graph i j v).bind (fun gr => writeCell gr j i v) <;>
      simp [hij, hw, hn, Exec.failed]
  · have hn : g.size ≤ i ∨ g.size ≤ j := by omega
    simp [hij, hn, Exec.failed, Exec.state?]

theorem AMUndirectedGraph.undirected_addToEdge_failed [Add GridT] (g : AMGraph GridT) (i j : Nat)
    (v : GridT) :
    ((AMUndirectedGraph.addToEdge g i j v).failed = true ↔ (g.size ≤ i ∨ g.size ≤ j)) ∧
      ((AMUndirectedGraph.addToEdge g i j v).failed = true →
        (AMUndirectedGraph.addToEdge g i j v).state? = some g) := by
  unfold AMUndirectedGraph.addToEdge
  by_cases hij : i < g.size ∧ j < g.size
  · have hn : ¬(g.size ≤ i ∨ g.size ≤ j) := by omega
    cases hw : (addCell g.graph i j v).bind (fun gr => addCell gr j i v) <;>
      simp [hij, hw, hn, Exec.failed]
  · have hn : g.size ≤ i ∨ g.size ≤ j := by omega
    simp [hij, hn, Exec.failed, Exec.state?]

theorem AMDirectedGraph.directed_addToEdge_failed [Add GridT] (g : AMGraph GridT) (i j : Nat)
    (v : GridT) :
    ((AMDirectedGraph.addToEdge g i j v).failed = true ↔ (g.size ≤ i ∨ g.size ≤ j)) ∧
      ((AMDirectedGraph.addToEdge g i j v).failed = true →
        (AMDirectedGraph.addToEdge g i j v).state? = some g) := by
  unfold AMDirectedGraph.addToEdge
  by_cases hij : i < g.size ∧ j < g.size
  · have hn : ¬(g.size ≤ i ∨ g.size ≤ j) := by omega
    cases hw : addCell g.graph i j v <;> simp [hij, hw, hn, Exec.failed]
  · have hn : g.size ≤ i ∨ g.size ≤ j := by omega
    simp [hij, hn, Exec.failed, Exec.state?]

end Failure

/-! ## Accumulation against assignment -/

section Accumulation

variable {GridT : Type} [Add GridT]

/-- Off the diagonal of a symmetric matrix the undirected `addToEdge` is `setEdge` with the
sum. -/
theorem AMUndirectedGraph.offDiagonal_addToEdge (g : AMGraph GridT) (i j : Nat)
    (v : GridT) (hsq : g.Square) (hi : i < g.size) (hj : j < g.size) (hij : i ≠ j)
    (hsym : g.get i j = g.get j i) :
    ∃ old, g.get i j = some old ∧
      AMUndirectedGraph.addToEdge g i j v = AMUndirectedGraph.setEdge g i j (old + v) := by
  obtain ⟨old, hold⟩ := AMGraph.get_isSome g hsq i j hi hj
  refine ⟨old, hold, ?_⟩
  have hold' : readCell g.graph i j = some old := hold
  obtain ⟨gr1, hw1⟩ := writeCell_isSome (old + v) hsq.1 hsq.2 hi hj
  have hne : ¬(j = i ∧ i = j) := fun h => hij h.2
  have hread : readCell gr1 j i = some old := by
    rw [readCell_writeCell hw1, if_neg hne]
    have hji : g.get j i = some old := by rw [← hsym, hold]
    exact hji
  simp [AMUndirectedGraph.addToEdge, AMUndirectedGraph.setEdge, addCell, hold', hw1, hread]

/-- On the diagonal the undirected `addToEdge` adds the value twice. -/
theorem AMUndirectedGraph.diagonal_addToEdge (g : AMGraph GridT) (i : Nat)
    (v : GridT) (hsq : g.Square) (hi : i < g.size) :
    ∃ old g', g.get i i = some old ∧ AMUndirectedGraph.addToEdge g i i v = .done g' ∧
      g'.get i i = some (old + v + v) := by
  obtain ⟨old, hold⟩ := AMGraph.get_isSome g hsq i i hi hi
  obtain ⟨g1, g', hd1, hd2, hrun, -, -⟩ :=
    AMUndirectedGraph.undirected_addToEdge_spec g i i v hsq hi hi
  obtain ⟨g1', hd1', hsz1, hsq1, hget1⟩ :=
    AMDirectedGraph.directed_addToEdge_spec g i i v hsq hi hi
  rw [hd1] at hd1'
  cases hd1'
  obtain ⟨g2', hd2', -, -, hget2⟩ :=
    AMDirectedGraph.directed_addToEdge_spec g1 i i v hsq1 (by omega) (by omega)
  rw [hd2] at hd2'
  cases hd2'
  refine ⟨old, g', hold, hrun, ?_⟩
  rw [hget2, hget1]
  simp [hold]

end Accumulation

/-! ## Degrees -/

section Degrees

theorem map_some_eq_map_range {α : Type} (row : List α) :
    row.map some = (List.range row.length).map (fun j => row[j]?) := by
  apply List.ext_getElem?
  intro m
  rw [List.getElem?_map, List.getElem?_map]
  by_cases hm : m < row.length
  · simp [List.getElem?_range hm, List.getElem?_eq_getElem hm]
  · have hm' : row.length ≤ m := by omega
    rw [List.getElem?_eq_none hm', List.getElem?_eq_none (by simpa using hm')]
    rfl

variable {GridT : Type} [DecidableEq GridT]

theorem foldl_degree (s : GridT) (line : List GridT) (k : Nat) :
    line.foldl (fun degree cost => if cost ≠ s then degree + 1 else degree) k =
      k + line.countP (fun cost => decide (cost ≠ s)) := by
  induction line generalizing k with
  | nil => simp
  | cons c cs ih =>
    rw [List.foldl_cons, ih, List.countP_cons]
    by_cases hc : c = s
    · simp [hc]
    · simp [hc]
      omega

theorem AMUndirectedGraph.lineDegree_eq (s : GridT) (row : List GridT) :
    AMUndirectedGraph.lineDegree s row =
      ((List.range row.length).filter (fun j => decide (row[j]? ≠ some s))).length := by
  unfold AMUndirectedGraph.lineDegree
  rw [foldl_degree, Nat.zero_add]
  have h1 : row.countP (fun cost => decide (cost ≠ s)) =
      (row.map some).countP (fun o => decide (o ≠ some s)) := by
    rw [List.countP_map]
    congr 1
    funext c
    simp
  rw [h1, map_some_eq_map_range, List.countP_map, List.countP_eq_length_filter]
  rfl

theorem AMUndirectedGraph.foldl_push_degree (s : GridT) (rows : List (List GridT))
    (degrees : List Nat) :
    rows.foldl (fun acc line => acc ++ [AMUndirectedGraph.lineDegree s line]) degrees =
      degrees ++ rows.map (AMUndirectedGraph.lineDegree s) := by
  induction rows generalizing degrees with
  | nil => simp
  | cons r rs ih => simp [ih]

end Degrees

/-! ## Loops with an invariant -/

section LoopLemmas

variable {σ : Type}

theorem forOpt_succ (n : Nat) (body : Nat → σ → Option σ) (s : σ) :
    forOpt (n + 1) body s = (forOpt n body s).bind (body n) := by
  simp [forOpt, List.range_succ, List.foldl_append]

theorem forExec_succ (n : Nat) (body : Nat → σ → Exec σ) (s : σ) :
    forExec (n + 1) body s = (forExec n body s).andThen (body n) := by
  simp [forExec, List.range_succ, List.foldl_append]

/-- A loop whose body keeps an invariant and reads inside the vectors ends with the
invariant. -/
theorem forOpt_invariant (P : Nat → σ → Prop) (n : Nat) (body : Nat → σ → Option σ) (s : σ)
    (h0 : P 0 s) (hstep : ∀ k t, k < n → P k t → ∃ t', body k t = some t' ∧ P (k + 1) t') :
    ∃ s', forOpt n body s = some s' ∧ P n s' := by
  have key : ∀ m, m ≤ n → ∃ s', forOpt m body s = some s' ∧ P m s' := by
    intro m
    induction m with
    | zero => intro _; exact ⟨s, rfl, h0⟩
    | succ m ih =>
      intro hm
      obtain ⟨t, ht, hP⟩ := ih (by omega)
      obtain ⟨t', ht', hP'⟩ := hstep m t (by omega) hP
      exact ⟨t', by rw [forOpt_succ, ht]; exact ht', hP'⟩
  exact key n (Nat.le_refl n)

/-- A loop whose body keeps an invariant and ends normally ends normally with the
invariant. -/
theorem forExec_invariant (P : Nat → σ → Prop) (n : Nat) (body : Nat → σ → Exec σ) (s : σ)
    (h0 : P 0 s) (hstep : ∀ k t, k < n → P k t → ∃ t', body k t = .done t' ∧ P (k + 1) t') :
    ∃ s', forExec n body s = .done s' ∧ P n s' := by
  have key : ∀ m, m ≤ n → ∃ s', forExec m body s = .done s' ∧ P m s' := by
    intro m
    induction m with
    | zero => intro _; exact ⟨s, rfl, h0⟩
    | succ m ih =>
      intro hm
      obtain ⟨t, ht, hP⟩ := ih (by omega)
      obtain ⟨t', ht', hP'⟩ := hstep m t (by omega) hP
      exact ⟨t', by rw [forExec_succ, ht]; exact ht', hP'⟩
  exact key n (Nat.le_refl n)

end LoopLemmas

/-! ## The scan for the extrema -/

section Scan

variable {T : Type} [LinearOrder T]

theorem scanCell_step (graph : AMGraph T) (hsq : graph.Square) (k j : Nat) (acc : T × T)
    (hk : k < graph.size) (hj : j < graph.size) (h : ScanRow graph k j acc) :
    ∃ acc', scanCell graph k j acc = some acc' ∧ ScanRow graph k (j + 1) acc' := by
  obtain ⟨val, hval⟩ := AMGraph.get_isSome graph hsq k j hk hj
  obtain ⟨⟨hmax, hmin, hrows⟩, hrow⟩ := h
  have hmem : val ∈ graph.cells := ⟨k, j, hk, hj, hval⟩
  refine ⟨(if acc.1 < val then val else acc.1, if acc.2 > val then val else acc.2),
    by simp only [scanCell, hval], ⟨?_, ?_, ?_⟩, ?_⟩
  · show (if acc.1 < val then val else acc.1) ∈ graph.cells
    split_ifs
    · exact hmem
    · exact hmax
  · show (if acc.2 > val then val else acc.2) ∈ graph.cells
    split_ifs
    · exact hmem
    · exact hmin
  · intro a b v ha hb hv
    obtain ⟨h1, h2⟩ := hrows a b v ha hb hv
    constructor
    · show (if acc.2 > val then val else acc.2) ≤ v
      split_ifs with hc
      · exact le_trans (le_of_lt hc) h1
      · exact h1
    · show v ≤ (if acc.1 < val then val else acc.1)
      split_ifs with hc
      · exact le_trans h2 (le_of_lt hc)
      · exact h2
  · intro b v hb hv
    by_cases hbj : b = j
    · subst hbj
      rw [hval] at hv
      cases hv
      constructor
      · show (if acc.2 > val then val else acc.2) ≤ val
        split_ifs with hc
        · exact le_refl _
        · exact not_lt.mp hc
      · show val ≤ (if acc.1 < val then val else acc.1)
        split_ifs with hc
        · exact le_refl _
        · exact not_lt.mp hc
    · obtain ⟨h1, h2⟩ := hrow b v (by omega) hv
      constructor
      · show (if acc.2 > val then val else acc.2) ≤ v
        split_ifs with hc
        · exact le_trans (le_of_lt hc) h1
        · exact h1
      · show v ≤ (if acc.1 < val then val else acc.1)
        split_ifs with hc
        · exact le_trans h2 (le_of_lt hc)
        · exact h2

theorem scan_row (graph : AMGraph T) (hsq : graph.Square) (k : Nat) (acc : T × T)
    (hk : k < graph.size) (h : ScanRows graph k acc) :
    ∃ acc', forOpt graph.size (fun j => scanCell graph k j) acc = some acc' ∧
      ScanRows graph (k + 1) acc' := by
  obtain ⟨acc', hrun, ⟨hmax, hmin, hrows⟩, hrow⟩ :=
    forOpt_invariant (ScanRow graph k) graph.size (fun j => scanCell graph k j) acc
      ⟨h, fun b v hb => absurd hb (Nat.not_lt_zero b)⟩
      (fun j t hj ht => scanCell_step graph hsq k j t hk hj ht)
  refine ⟨acc', hrun, hmax, hmin, ?_⟩
  intro a b v ha hb hv
  by_cases hak : a = k
  · subst hak
    exact hrow b v hb hv
  · exact hrows a b v (by omega) hb hv

/-- The first pair of loops of `normalizeGraphMaxMin` ends with the greatest and the least
value of a non-empty matrix. -/
theorem scan_extrema (graph : AMGraph T) (hsq : graph.Square) (hpos : 0 < graph.size)
    (first : T) (hfirst : graph.get 0 0 = some first) :
    ∃ acc, forOpt graph.size (fun i => forOpt graph.size (fun j => scanCell graph i j))
        (first, first) = some acc ∧
      IsGreatest graph.cells acc.1 ∧ IsLeast graph.cells acc.2 := by
  have hmem : first ∈ graph.cells := ⟨0, 0, hpos, hpos, hfirst⟩
  obtain ⟨acc, hrun, hmax, hmin, hrows⟩ :=
    forOpt_invariant (ScanRows graph) graph.size
      (fun i => forOpt graph.size (fun j => scanCell graph i j)) (first, first)
      ⟨hmem, hmem, fun a b v ha => absurd ha (Nat.not_lt_zero a)⟩
      (fun k t hk ht => scan_row graph hsq k t hk ht)
  refine ⟨acc, hrun, ⟨hmax, ?_⟩, ⟨hmin, ?_⟩⟩
  · rintro v ⟨a, b, ha, hb, hv⟩
    exact (hrows a b v ha hb hv).2
  · rintro v ⟨a, b, ha, hb, hv⟩
    exact (hrows a b v ha hb hv).1

end Scan

/-! ## The normalising writes -/

section NormaliseWrites

variable {T : Type} [Sub T]

theorem normCell_step (toDouble : T → ℚ) (graph : AMGraph T) (hsq : graph.Square)
    (max min : T) (k j : Nat) (out : AMGraph Double)
    (hk : k < graph.size) (hj : j < graph.size)
    (hsize : out.size = graph.size) (hout : out.Square) :
    ∃ val out', graph.get k j = some val ∧
      normCell toDouble graph max min k j out = .done out' ∧
      out'.size = graph.size ∧ out'.Square ∧
      ∀ a b, out'.get a b =
        if a = k ∧ b = j then
          some (Double.div (toDouble (val - min)) (toDouble (max - min)))
        else out.get a b := by
  obtain ⟨val, hval⟩ := AMGraph.get_isSome graph hsq k j hk hj
  obtain ⟨out', hrun, hsize', hout', hget⟩ := AMGraph.base_setEdge_spec out k j
    (Double.div (toDouble (val - min)) (toDouble (max - min))) hout
    (by omega) (by omega)
  exact ⟨val, out', hval, by simp only [normCell, hval, hrun], by omega, hout', hget⟩

theorem normalize_row (toDouble : T → ℚ) (graph : AMGraph T) (hsq : graph.Square)
    (max min : T) (k : Nat) (out : AMGraph Double) (hk : k < graph.size)
    (hsize : out.size = graph.size) (hout : out.Square) :
    ∃ out', forExec graph.size (fun j => normCell toDouble graph max min k j) out = .done out' ∧
      out'.size = graph.size ∧ out'.Square ∧
      (∀ a b, a ≠ k → out'.get a b = out.get a b) ∧
      ∀ b val, b < graph.size → graph.get k b = some val →
        out'.get k b = some (Double.div (toDouble (val - min)) (toDouble (max - min))) := by
  obtain ⟨out', hrun, hsize', hout', hframe, hrow⟩ :=
    forExec_invariant
      (fun j o => o.size = graph.size ∧ o.Square ∧
        (∀ a b, a ≠ k → o.get a b = out.get a b) ∧
        ∀ b val, b < j → graph.get k b = some val →
          o.get k b = some (Double.div (toDouble (val - min)) (toDouble (max - min))))
      graph.size (fun j => normCell toDouble graph max min k j) out
      ⟨hsize, hout, fun _ _ _ => rfl, fun b _ hb => absurd hb (Nat.not_lt_zero b)⟩
      (by
        intro j o hj ⟨hs, hq, hfr, hr⟩
        obtain ⟨val, o', hval, hstep, hs', hq', hget⟩ :=
          normCell_step toDouble graph hsq max min k j o hk hj hs hq
        refine ⟨o', hstep, hs', hq', ?_, ?_⟩
        · intro a b hak
          have hne : ¬(a = k ∧ b = j) := fun h => hak h.1
          rw [hget, if_neg hne, hfr a b hak]
        · intro b w hb hw
          by_cases hbj : b = j
          · subst hbj
            rw [hval] at hw
            cases hw
            simp [hget]
          · have hne : ¬(k = k ∧ b = j) := fun h => hbj h.2
            rw [hget, if_neg hne]
            exact hr b w (by omega) hw)
  exact ⟨out', hrun, hsize', hout', hframe, hrow⟩

/-- The second pair of loops of `normalizeGraphMaxMin` ends normally on a square output of
the size of the input, and fills every cell. -/
theorem normalize_writes (toDouble : T → ℚ) (graph : AMGraph T) (hsq : graph.Square)
    (max min : T) (out : AMGraph Double)
    (hsize : out.size = graph.size) (hout : out.Square) :
    ∃ out', forExec graph.size
        (fun i => forExec graph.size (fun j => normCell toDouble graph max min i j)) out =
          .done out' ∧
      out'.size = graph.size ∧ out'.Square ∧
      ∀ a b val, a < graph.size → b < graph.size → graph.get a b = some val →
        out'.get a b = some (Double.div (toDouble (val - min)) (toDouble (max - min))) := by
  obtain ⟨out', hrun, hsize', hout', hcells⟩ :=
    forExec_invariant
      (fun k o => o.size = graph.size ∧ o.Square ∧
        ∀ a b val, a < k → b < graph.size → graph.get a b = some val →
          o.get a b = some (Double.div (toDouble (val - min)) (toDouble (max - min))))
      graph.size
      (fun i => forExec graph.size (fun j => normCell toDouble graph max min i j)) out
      ⟨hsize, hout, fun a _ _ ha => absurd ha (Nat.not_lt_zero a)⟩
      (by
        intro k o hk ⟨hs, hq, hc⟩
        obtain ⟨o', hstep, hs', hq', hframe, hrow⟩ :=
          normalize_row toDouble graph hsq max min k o hk hs hq
        refine ⟨o', hstep, hs', hq', ?_⟩
        intro a b val ha hb hval
        by_cases hak : a = k
        · subst hak
          exact hrow b val hb hval
        · rw [hframe a b hak]
          exact hc a b val (by omega) hb hval)
  exact ⟨out', hrun, hsize', hout', fun a b val ha hb hval => hcells a b val ha hb hval⟩

variable [LinearOrder T]

/-- On a non-empty square matrix `normalizeGraphMaxMin` ends normally: the output has the
size of the input and each cell holds the quotient of `val - min` by `max - min`, for the
greatest and the least value of the input. -/
theorem normalizeGraphMaxMin_spec (toDouble : T → ℚ) (out_graph : AMGraph Double)
    (graph : AMGraph T) (hsq : graph.Square) (hpos : 0 < graph.size) :
    ∃ max min out, IsGreatest graph.cells max ∧ IsLeast graph.cells min ∧
      normalizeGraphMaxMin toDouble out_graph graph = .done out ∧
      out.size = graph.size ∧ out.Square ∧
      ∀ a b val, a < graph.size → b < graph.size → graph.get a b = some val →
        out.get a b = some (Double.div (toDouble (val - min)) (toDouble (max - min))) := by
  obtain ⟨first, hfirst⟩ := AMGraph.get_isSome graph hsq 0 0 hpos hpos
  obtain ⟨acc, hscan, hmax, hmin⟩ := scan_extrema graph hsq hpos first hfirst
  obtain ⟨out, hrun, hsize, hout, hcells⟩ :=
    normalize_writes toDouble graph hsq acc.1 acc.2 (out_graph.resize graph.size)
      (by rw [AMGraph.resize_eq]) (AMGraph.square_resize _ _)
  refine ⟨acc.1, acc.2, out, hmax, hmin, ?_, hsize, hout, hcells⟩
  simp only [normalizeGraphMaxMin, hfirst, AMGraph.getSize, hscan]
  exact hrun

/-- With a conversion that commutes with subtraction and separates the two extrema, every
output cell holds the finite quotient. -/
theorem normalizeGraphMaxMin_finite (toDouble : T → ℚ)
    (hsub : ∀ a b, toDouble (a - b) = toDouble a - toDouble b)
    (out_graph : AMGraph Double) (graph : AMGraph T) (hsq : graph.Square)
    (hpos : 0 < graph.size) (max min : T)
    (hmax : IsGreatest graph.cells max) (hmin : IsLeast graph.cells min)
    (hne : toDouble max ≠ toDouble min) :
    ∃ out, normalizeGraphMaxMin toDouble out_graph graph = .done out ∧
      out.size = graph.size ∧
      ∀ i j val, i < graph.size → j < graph.size → graph.get i j = some val →
        out.get i j =
          some (.finite ((toDouble val - toDouble min) / (toDouble max - toDouble min))) := by
  obtain ⟨max', min', out, hmax', hmin', hrun, hsize, -, hcells⟩ :=
    normalizeGraphMaxMin_spec toDouble out_graph graph hsq hpos
  have e1 : max' = max := hmax'.unique hmax
  have e2 : min' = min := hmin'.unique hmin
  subst e1 e2
  refine ⟨out, hrun, hsize, ?_⟩
  intro i j val hi hj hval
  have hd : toDouble max' - toDouble min' ≠ 0 := sub_ne_zero.mpr hne
  rw [hcells i j val hi hj hval, hsub, hsub, Double.div, if_neg hd]

/-- The extrema of the matrix 1 2 / 3 5. -/
theorem sample_extrema :
    IsGreatest (⟨[[1, 2], [3, 5]], 2⟩ : AMGraph Int).cells 5 ∧
      IsLeast (⟨[[1, 2], [3, 5]], 2⟩ : AMGraph Int).cells 1 := by
  refine ⟨⟨⟨1, 1, by decide, by decide, by decide⟩, ?_⟩,
    ⟨⟨0, 0, by decide, by decide, by decide⟩, ?_⟩⟩
  · rintro v ⟨i, j, hi, hj, hv⟩
    simp only at hi hj
    interval_cases i <;> interval_cases j <;>
      simp [AMGraph.get, readCell] at hv <;> omega
  · rintro v ⟨i, j, hi, hj, hv⟩
    simp only at hi hj
    interval_cases i <;> interval_cases j <;>
      simp [AMGraph.get, readCell] at hv <;> omega

end NormaliseWrites

/-! ## The segmenting writes -/

section SegmentWrites

variable {T : Type} [LinearOrder T]

theorem segmentCell_step (graph : AMGraph T) (hsq : graph.Square) (inf_lim sup_lim : T)
    (k j : Nat) (out : AMGraph Bool) (hk : k < graph.size) (hj : j < graph.size)
    (hsize : out.size = graph.size) (hout : out.Square) :
    ∃ val out', graph.get k j = some val ∧
      segmentCell graph inf_lim sup_lim k j out = .done out' ∧
      out'.size = graph.size ∧ out'.Square ∧
      ∀ a b, out'.get a b =
        if a = k ∧ b = j then
          (if inf_lim ≤ val ∧ val ≤ sup_lim then some true else out.get a b)
        else out.get a b := by
  obtain ⟨val, hval⟩ := AMGraph.get_isSome graph hsq k j hk hj
  by_cases hc : inf_lim ≤ val ∧ val ≤ sup_lim
  · obtain ⟨out', hrun, hsize', hout', hget⟩ := AMGraph.base_setEdge_spec out k j true hout
      (by omega) (by omega)
    refine ⟨val, out', hval, ?_, by omega, hout', ?_⟩
    · simp only [segmentCell, hval, ge_iff_le, hc, and_self, if_true, hrun]
    · intro a b
      rw [hget, if_pos hc]
  · refine ⟨val, out, hval, ?_, hsize, hout, ?_⟩
    · simp only [segmentCell, hval, ge_iff_le, hc, if_false]
    · intro a b
      simp only [if_neg hc, ite_self]

theorem segment_row (graph : AMGraph T) (hsq : graph.Square) (inf_lim sup_lim : T)
    (k : Nat) (out : AMGraph Bool) (hk : k < graph.size)
    (hsize : out.size = graph.size) (hout : out.Square) :
    ∃ out', forExec graph.size (fun j => segmentCell graph inf_lim sup_lim k j) out =
        .done out' ∧
      out'.size = graph.size ∧ out'.Square ∧
      (∀ a b, a ≠ k → out'.get a b = out.get a b) ∧
      ∀ b val, b < graph.size → graph.get k b = some val →
        out'.get k b = if inf_lim ≤ val ∧ val ≤ sup_lim then some true else out.get k b := by
  obtain ⟨out', hrun, hsize', hout', hframe, hrow, -⟩ :=
    forExec_invariant
      (fun j o => o.size = graph.size ∧ o.Square ∧
        (∀ a b, a ≠ k → o.get a b = out.get a b) ∧
        (∀ b val, b < j → graph.get k b = some val →
          o.get k b = if inf_lim ≤ val ∧ val ≤ sup_lim then some true else out.get k b) ∧
        ∀ b, j ≤ b → o.get k b = out.get k b)
      graph.size (fun j => segmentCell graph inf_lim sup_lim k j) out
      ⟨hsize, hout, fun _ _ _ => rfl, fun b _ hb => absurd hb (Nat.not_lt_zero b),
        fun _ _ => rfl⟩
      (by
        intro j o hj ⟨hs, hq, hfr, hr, hrest⟩
        obtain ⟨val, o', hval, hstep, hs', hq', hget⟩ :=
          segmentCell_step graph hsq inf_lim sup_lim k j o hk hj hs hq
        refine ⟨o', hstep, hs', hq', ?_, ?_, ?_⟩
        · intro a b hak
          have hne : ¬(a = k ∧ b = j) := fun h => hak h.1
          rw [hget, if_neg hne, hfr a b hak]
        · intro b w hb hw
          by_cases hbj : b = j
          · subst hbj
            rw [hval] at hw
            cases hw
            rw [hget, if_pos ⟨rfl, rfl⟩, hrest b (Nat.le_refl b)]
          · have hne : ¬(k = k ∧ b = j) := fun h => hbj h.2
            rw [hget, if_neg hne]
            exact hr b w (by omega) hw
        · intro b hb
          have hne : ¬(k = k ∧ b = j) := fun h => by omega
          rw [hget, if_neg hne]
          exact hrest b (by omega))
  exact ⟨out', hrun, hsize', hout', hframe, hrow⟩

theorem segment_writes (graph : AMGraph T) (hsq : graph.Square) (inf_lim sup_lim : T)
    (out : AMGraph Bool) (hsize : out.size = graph.size) (hout : out.Square) :
    ∃ out', forExec graph.size
        (fun i => forExec graph.size (fun j => segmentCell graph inf_lim sup_lim i j)) out =
          .done out' ∧
      out'.size = graph.size ∧ out'.Square ∧
      ∀ a b val, a < graph.size → b < graph.size → graph.get a b = some val →
        out'.get a b = if inf_lim ≤ val ∧ val ≤ sup_lim then some true else out.get a b := by
  obtain ⟨out', hrun, hsize', hout', hcells, -⟩ :=
    forExec_invariant
      (fun k o => o.size = graph.size ∧ o.Square ∧
        (∀ a b val, a < k → b < graph.size → graph.get a b = some val →
          o.get a b = if inf_lim ≤ val ∧ val ≤ sup_lim then some true else out.get a b) ∧
        ∀ a b, k ≤ a → o.get a b = out.get a b)
      graph.size
      (fun i => forExec graph.size (fun j => segmentCell graph inf_lim sup_lim i j)) out
      ⟨hsize, hout, fun a _ _ ha => absurd ha (Nat.not_lt_zero a), fun _ _ _ => rfl⟩
      (by
        intro k o hk ⟨hs, hq, hc, hrest⟩
        obtain ⟨o', hstep, hs', hq', hframe, hrow⟩ :=
          segment_row graph hsq inf_lim sup_lim k o hk hs hq
        refine ⟨o', hstep, hs', hq', ?_, ?_⟩
        · intro a b val ha hb hval
          by_cases hak : a = k
          · subst hak
            rw [hrow b val hb hval, hrest a b (Nat.le_refl a)]
          · rw [hframe a b hak]
            exact hc a b val (by omega) hb hval
        · intro a b ha
          rw [hframe a b (by omega)]
          exact hrest a b (by omega))
  exact ⟨out', hrun, hsize', hout', fun a b val ha hb hval => hcells a b val ha hb hval⟩

/-- On a square matrix `segmentGraphEdgesBoolean` ends normally: the output has the size of
the input and each cell tells whether the input cell lies between the two limits. -/
theorem segmentGraphEdgesBoolean_spec (out_graph : AMGraph Bool) (graph : AMGraph T)
    (inf_lim sup_lim : T) (hsq : graph.Square) :
    ∃ out, segmentGraphEdgesBoolean out_graph graph inf_lim sup_lim = .done out ∧
      out.size = graph.size ∧ out.Square ∧
      ∀ a b val, a < graph.size → b < graph.size → graph.get a b = some val →
        out.get a b = some (decide (inf_lim ≤ val ∧ val ≤ sup_lim)) := by
  obtain ⟨out, hrun, hsize, hout, hcells⟩ :=
    segment_writes graph hsq inf_lim sup_lim (out_graph.resize graph.size)
      (by rw [AMGraph.resize_eq]) (AMGraph.square_resize _ _)
  refine ⟨out, hrun, hsize, hout, ?_⟩
  intro a b val ha hb hval
  have hz : (out_graph.resize graph.size).get a b = some false := by
    rw [AMGraph.get_resize, if_pos ⟨ha, hb⟩]
    rfl
  rw [hcells a b val ha hb hval, hz]
  by_cases hc : inf_lim ≤ val ∧ val ≤ sup_lim
  · simp [hc]
  · simp only [if_neg hc, decide_eq_false hc]

end SegmentWrites

/-! ## Claims on the checked writes and on `resize` -/

/-- C1: on a graph of size `n` with `i, j < n`, the base `setEdge(i, j, v)` ends normally,
`get(i, j)` then returns `v`, every other cell holds what it held before, and the size is
unchanged. -/
theorem AMGraph.setEdge_get_frame {GridT : Type} (g : AMGraph GridT) (i j : Nat) (v : GridT)
    (hsq : g.Square) (hi : i < g.size) (hj : j < g.size) :
    ∃ g', g.setEdge i j v = .done g' ∧ g'.size = g.size ∧ g'.get i j = some v ∧
      ∀ a b, (a, b) ≠ (i, j) → g'.get a b = g.get a b := by
  obtain ⟨g', hrun, hsize, -, hget⟩ := AMGraph.base_setEdge_spec g i j v hsq hi hj
  refine ⟨g', hrun, hsize, by simp [hget], ?_⟩
  intro a b hne
  have hab : ¬(a = i ∧ b = j) := fun h => hne (by rw [h.1, h.2])
  rw [hget, if_neg hab]

/-- Witness of C1: writing 9 at (0, 1) of the 2 × 2 matrix 1 2 / 3 4 gives 1 9 / 3 4. -/
theorem AMGraph.setEdge_get_frame_witness :
    ∃ g', (⟨[[1, 2], [3, 4]], 2⟩ : AMGraph Int).setEdge 0 1 9 = .done g' ∧ g'.size = 2 ∧
      g'.get 0 1 = some 9 ∧ g'.get 1 0 = some 3 := by
  obtain ⟨g', hrun, hsize, hget, hframe⟩ :=
    AMGraph.setEdge_get_frame (⟨[[1, 2], [3, 4]], 2⟩ : AMGraph Int) 0 1 9
      (by decide) (by decide) (by decide)
  exact ⟨g', hrun, hsize, hget, by rw [hframe 1 0 (by decide)]; rfl⟩

/-- C2: every state of an undirected graph reached from its construction (of any size) by
calls of `setEdge`, `addToEdge` and `resize`, failing calls included, exists (no call runs
into undefined behaviour) and has `cells[i][j] == cells[j][i]` for all `i, j < size`. -/
theorem AMUndirectedGraph.reachable_symmetric {GridT : Type} [Zero GridT] [Add GridT]
    (graph_size : Nat) (calls : List (AMUndirectedGraph.Call GridT)) :
    ∃ g, AMUndirectedGraph.run (AMGraph.new graph_size) calls = some g ∧
      ∀ i j, i < g.size → j < g.size → ∃ v, g.get i j = some v ∧ g.get j i = some v := by
  have hsym0 : ∀ a b, (AMGraph.new graph_size : AMGraph GridT).get a b =
      (AMGraph.new graph_size : AMGraph GridT).get b a := by
    intro a b
    simp only [AMGraph.new, AMGraph.get_resize, and_comm]
  obtain ⟨g, hrun, hsq, hsym⟩ := AMUndirectedGraph.run_invariant
    (AMGraph.new graph_size : AMGraph GridT) calls (AMGraph.square_resize _ _) hsym0
  refine ⟨g, hrun, ?_⟩
  intro i j hi hj
  obtain ⟨v, hv⟩ := AMGraph.get_isSome g hsq i j hi hj
  exact ⟨v, hv, by rw [← hsym i j, hv]⟩

/-- Witness of C2: a size-2 graph after a write, an accumulation and a failing write. -/
theorem AMUndirectedGraph.reachable_symmetric_witness :
    ∃ g, AMUndirectedGraph.run (AMGraph.new 2 : AMGraph Int)
        [.setEdge 0 1 5, .addToEdge 1 0 2, .setEdge 7 0 1] = some g ∧
      ∃ v, g.get 0 1 = some v ∧ g.get 1 0 = some v := by
  obtain ⟨g, hrun, hsym⟩ := AMUndirectedGraph.reachable_symmetric (2 : Nat)
    ([.setEdge 0 1 5, .addToEdge 1 0 2, .setEdge 7 0 1] : List (AMUndirectedGraph.Call Int))
  have hval : AMUndirectedGraph.run (AMGraph.new 2 : AMGraph Int)
      [.setEdge 0 1 5, .addToEdge 1 0 2, .setEdge 7 0 1] = some ⟨[[0, 7], [7, 0]], 2⟩ := by
    decide
  have hg : g = ⟨[[0, 7], [7, 0]], 2⟩ := by
    rw [hval] at hrun
    exact (Option.some.inj hrun).symm
  subst hg
  exact ⟨_, hrun, hsym 0 1 (by decide) (by decide)⟩

/-- C3: on an undirected graph of size `n` with `i, j < n` (the diagonal included),
`setEdge(i, j, v)` ends normally and both `get(i, j)` and `get(j, i)` then return `v`. -/
theorem AMUndirectedGraph.setEdge_get_both {GridT : Type} (g : AMGraph GridT) (i j : Nat)
    (v : GridT) (hsq : g.Square) (hi : i < g.size) (hj : j < g.size) :
    ∃ g', AMUndirectedGraph.setEdge g i j v = .done g' ∧
      g'.get i j = some v ∧ g'.get j i = some v := by
  obtain ⟨g', hrun, -, -, hget⟩ := AMUndirectedGraph.undirected_setEdge_spec g i j v hsq hi hj
  exact ⟨g', hrun, by simp [hget], by simp [hget]⟩

/-- Witness of C3: a write on the diagonal of a fresh size-3 graph. -/
theorem AMUndirectedGraph.setEdge_get_both_witness :
    ∃ g', AMUndirectedGraph.setEdge (AMGraph.new 3 : AMGraph Int) 2 2 4 = .done g' ∧
      g'.get 2 2 = some 4 ∧ g'.get 2 2 = some 4 :=
  AMUndirectedGraph.setEdge_get_both (AMGraph.new 3 : AMGraph Int) 2 2 4
    (by decide) (by decide) (by decide)

/-- C4: each of the four checked writes throws exactly when `i >= size` or `j >= size`, and
a call that throws leaves the object (size and matrix) as it was; so `setEdge(5, 0, v)` on a
fresh graph of size 3 throws and all nine cells stay 0. -/
theorem checked_write_fails_iff {GridT : Type} [Zero GridT] [Add GridT] (g : AMGraph GridT)
    (i j : Nat) (v : GridT) :
    (∀ r ∈ [g.setEdge i j v, AMUndirectedGraph.setEdge g i j v,
        AMUndirectedGraph.addToEdge g i j v, AMDirectedGraph.addToEdge g i j v],
      (r.failed = true ↔ (g.size ≤ i ∨ g.size ≤ j)) ∧
        (r.failed = true → r.state? = some g)) ∧
    ((AMGraph.new 3 : AMGraph GridT).setEdge 5 0 v).failed = true ∧
    ((AMGraph.new 3 : AMGraph GridT).setEdge 5 0 v).state? = some (AMGraph.new 3) ∧
    ∀ a < 3, ∀ b < 3, (AMGraph.new 3 : AMGraph GridT).get a b = some 0 := by
  have hsize : (AMGraph.new 3 : AMGraph GridT).size = 3 := by
    simp [AMGraph.new, AMGraph.resize_eq]
  have hfail : ((AMGraph.new 3 : AMGraph GridT).setEdge 5 0 v).failed = true :=
    (AMGraph.base_setEdge_failed _ 5 0 v).1.mpr (Or.inl (by rw [hsize]; decide))
  refine ⟨?_, hfail, (AMGraph.base_setEdge_failed _ 5 0 v).2 hfail, ?_⟩
  · intro r hr
    simp only [List.mem_cons, List.mem_singleton, List.not_mem_nil, or_false] at hr
    rcases hr with rfl | rfl | rfl | rfl
    · exact AMGraph.base_setEdge_failed g i j v
    · exact AMUndirectedGraph.undirected_setEdge_failed g i j v
    · exact AMUndirectedGraph.undirected_addToEdge_failed g i j v
    · exact AMDirectedGraph.directed_addToEdge_failed g i j v
  · intro a ha b hb
    simp [AMGraph.new, AMGraph.get_resize, ha, hb]

/-- Witness of C4: the undirected `addToEdge(0, 3, 1)` on the matrix 1 2 / 2 1 throws and
leaves it. -/
theorem checked_write_fails_iff_witness :
    (AMUndirectedGraph.addToEdge (⟨[[1, 2], [2, 1]], 2⟩ : AMGraph Int) 0 3 1).state? =
      some ⟨[[1, 2], [2, 1]], 2⟩ :=
  ((checked_write_fails_iff (⟨[[1, 2], [2, 1]], 2⟩ : AMGraph Int) 0 3 1).1 _
    (by simp)).2 (by decide)

/-- C5: whatever the object held before, after `resize(n)` the size is `n` and every
`get(i, j)` with `i, j < n` returns zero; the same holds after construction with `n`. -/
theorem AMGraph.resize_zero {GridT : Type} [Zero GridT] (g : AMGraph GridT) (n i j : Nat)
    (hi : i < n) (hj : j < n) :
    (g.resize n).size = n ∧ (g.resize n).get i j = some 0 ∧
      (AMGraph.new n : AMGraph GridT).size = n ∧
      (AMGraph.new n : AMGraph GridT).get i j = some 0 := by
  refine ⟨by rw [AMGraph.resize_eq], ?_, by rw [AMGraph.new, AMGraph.resize_eq], ?_⟩
  · rw [AMGraph.get_resize, if_pos ⟨hi, hj⟩]
  · rw [AMGraph.new, AMGraph.get_resize, if_pos ⟨hi, hj⟩]

/-- Witness of C5: growing the matrix 1 2 / 3 4 to size 3 clears the cell that held 2. -/
theorem AMGraph.resize_zero_witness :
    ((⟨[[1, 2], [3, 4]], 2⟩ : AMGraph Int).resize 3).size = 3 ∧
      ((⟨[[1, 2], [3, 4]], 2⟩ : AMGraph Int).resize 3).get 0 1 = some 0 ∧
      (AMGraph.new 3 : AMGraph Int).size = 3 ∧
      (AMGraph.new 3 : AMGraph Int).get 0 1 = some 0 :=
  AMGraph.resize_zero (⟨[[1, 2], [3, 4]], 2⟩ : AMGraph Int) 3 0 1 (by decide) (by decide)

/-! ## Claims on accumulation and on degrees -/

/-- C6, at the failing input: on the diagonal of a fresh graph of size 1 `get(0, 0)` returns
0, the undirected `addToEdge(0, 0, 1)` leaves 2 in the cell, and `setEdge(0, 0, 0 + 1)`
leaves 1, so the two calls do not produce the same graph. -/
theorem AMUndirectedGraph.addToEdge_diagonal_differs :
    (AMGraph.new 1 : AMGraph Int).get 0 0 = some 0 ∧
      AMUndirectedGraph.addToEdge (AMGraph.new 1 : AMGraph Int) 0 0 1 = .done ⟨[[2]], 1⟩ ∧
      AMUndirectedGraph.setEdge (AMGraph.new 1 : AMGraph Int) 0 0 (0 + 1) = .done ⟨[[1]], 1⟩ ∧
      AMUndirectedGraph.addToEdge (AMGraph.new 1 : AMGraph Int) 0 0 1 ≠
        AMUndirectedGraph.setEdge (AMGraph.new 1 : AMGraph Int) 0 0 (0 + 1) := by
  decide

/-- C7: on a directed graph of size `n` with `i_from, i_to < n`, `addToEdge(i_from, i_to, v)`
ends normally with the graph that `setEdge(i_from, i_to, get(i_from, i_to) + v)` produces,
and every cell other than `(i_from, i_to)` is untouched; on a fresh graph of size 3,
`setEdge(0,1,4)`, `setEdge(1,2,7)`, `addToEdge(0,1,1)` give 5 at (0,1), 7 at (1,2) and 0
elsewhere. -/
theorem AMDirectedGraph.addToEdge_eq_setEdge {GridT : Type} [Add GridT] (g : AMGraph GridT)
    (i_from i_to : Nat) (v : GridT) (hsq : g.Square)
    (hi : i_from < g.size) (hj : i_to < g.size) :
    (∃ old g', g.get i_from i_to = some old ∧
      AMDirectedGraph.addToEdge g i_from i_to v = .done g' ∧
      g.setEdge i_from i_to (old + v) = .done g' ∧
      g'.get i_from i_to = some (old + v) ∧
      ∀ a b, (a, b) ≠ (i_from, i_to) → g'.get a b = g.get a b) ∧
    ∃ g3, (((AMGraph.new 3 : AMGraph Int).setEdge 0 1 4).andThen fun g1 =>
        (g1.setEdge 1 2 7).andThen fun g2 => AMDirectedGraph.addToEdge g2 0 1 1) = .done g3 ∧
      g3.get 0 1 = some 5 ∧ g3.get 1 2 = some 7 ∧
      ∀ a < 3, ∀ b < 3, (a, b) ≠ (0, 1) → (a, b) ≠ (1, 2) → g3.get a b = some 0 := by
  constructor
  · obtain ⟨old, hold⟩ := AMGraph.get_isSome g hsq i_from i_to hi hj
    obtain ⟨g', hrun, -, -, hget⟩ :=
      AMDirectedGraph.directed_addToEdge_spec g i_from i_to v hsq hi hj
    refine ⟨old, g', hold, hrun, ?_, by simp [hget, hold], ?_⟩
    · have hold' : readCell g.graph i_from i_to = some old := hold
      rw [← hrun]
      cases hw : writeCell g.graph i_from i_to (old + v) <;>
        simp [AMDirectedGraph.addToEdge, AMGraph.setEdge, addCell, hold', hw, hi, hj]
    · intro a b hne
      have hab : ¬(a = i_from ∧ b = i_to) := fun h => hne (by rw [h.1, h.2])
      rw [hget, if_neg hab]
  · exact ⟨⟨[[0, 5, 0], [0, 0, 7], [0, 0, 0]], 3⟩, by decide, by decide, by decide, by decide⟩

/-- Witness of C7: adding 10 at (1, 0) of the matrix 1 2 / 3 4 is writing 13 there, and
leaves the cell (0, 1). -/
theorem AMDirectedGraph.addToEdge_eq_setEdge_witness :
    ∃ old g', (⟨[[1, 2], [3, 4]], 2⟩ : AMGraph Int).get 1 0 = some old ∧
      AMDirectedGraph.addToEdge (⟨[[1, 2], [3, 4]], 2⟩ : AMGraph Int) 1 0 10 = .done g' ∧
      (⟨[[1, 2], [3, 4]], 2⟩ : AMGraph Int).setEdge 1 0 (old + 10) = .done g' ∧
      g'.get 0 1 = some 2 := by
  obtain ⟨⟨old, g', hold, hadd, hset, -, hframe⟩, -⟩ :=
    AMDirectedGraph.addToEdge_eq_setEdge (⟨[[1, 2], [3, 4]], 2⟩ : AMGraph Int) 1 0 10
      (by decide) (by decide) (by decide)
  exact ⟨old, g', hold, hadd, hset, by rw [hframe 0 1 (by decide)]; rfl⟩

/-- C8 as stated fails: on a graph of size 1, `getGraphDegree` called with an output vector
that already holds one entry returns two entries, not one. -/
theorem AMUndirectedGraph.getGraphDegree_keeps_prior :
    ¬((AMUndirectedGraph.getGraphDegree (AMGraph.new 1 : AMGraph Int) [7] 0).length =
      (AMGraph.new 1 : AMGraph Int).size) := by
  decide

/-- C8, amended: on an undirected graph of size `n`, `getGraphDegree(degrees, s)` keeps what
`degrees` held and appends `n` entries, one per vertex in vertex-index order; the entry of
vertex `i` is the number of columns `j < n` with `cells[i][j] != s`. -/
theorem AMUndirectedGraph.getGraphDegree_appends {GridT : Type} [DecidableEq GridT]
    (g : AMGraph GridT) (degrees : List Nat) (s : GridT) (hsq : g.Square) :
    AMUndirectedGraph.getGraphDegree g degrees s =
      degrees ++ (List.range g.size).map (fun i =>
        ((List.range g.size).filter (fun j => decide (g.get i j ≠ some s))).length) := by
  unfold AMUndirectedGraph.getGraphDegree
  rw [AMUndirectedGraph.foldl_push_degree]
  congr 1
  apply List.ext_getElem?
  intro m
  rw [List.getElem?_map, List.getElem?_map]
  by_cases hm : m < g.size
  · have hm' : m < g.graph.length := by rw [hsq.1]; exact hm
    have hrow : (g.graph[m]).length = g.size := hsq.2 _ (List.getElem_mem hm')
    rw [List.getElem?_eq_getElem hm', List.getElem?_range hm]
    simp only [Option.map_some']
    rw [AMUndirectedGraph.lineDegree_eq, hrow]
    simp [AMGraph.get, readCell, List.getElem?_eq_getElem hm']
  · have hm' : g.graph.length ≤ m := by rw [hsq.1]; omega
    rw [List.getElem?_eq_none hm', List.getElem?_eq_none (by simpa using (by omega : g.size ≤ m))]
    rfl

/-- Witness of C8, amended: the degrees of the matrix 0 3 / 3 0 after one prior entry. -/
theorem AMUndirectedGraph.getGraphDegree_appends_witness :
    AMUndirectedGraph.getGraphDegree (⟨[[0, 3], [3, 0]], 2⟩ : AMGraph Int) [9] 0 =
      [9] ++ (List.range 2).map (fun i => ((List.range 2).filter (fun j =>
        decide ((⟨[[0, 3], [3, 0]], 2⟩ : AMGraph Int).get i j ≠ some 0))).length) :=
  AMUndirectedGraph.getGraphDegree_appends (⟨[[0, 3], [3, 0]], 2⟩ : AMGraph Int) [9] 0
    (by decide)

/-! ## Claims on the normalisation -/

/-- C9: for a non-empty square graph of size `n` whose greatest value `max` differs from its
least value `min`, and a conversion to `double` that is exact (it commutes with subtraction
and is injective), `normalizeGraphMaxMin` ends normally with an output of size `n` in which
`out[i][j] == (in[i][j] - min) / (max - min)` for all `i, j < n`, whatever `out_graph` held
before. -/
theorem normalizeGraphMaxMin_cells {T : Type} [LinearOrder T] [Sub T] (toDouble : T → ℚ)
    (hsub : ∀ a b, toDouble (a - b) = toDouble a - toDouble b)
    (hinj : Function.Injective toDouble)
    (out_graph : AMGraph Double) (graph : AMGraph T) (hsq : graph.Square)
    (hpos : 0 < graph.size) (max min : T)
    (hmax : IsGreatest graph.cells max) (hmin : IsLeast graph.cells min) (hne : max ≠ min) :
    ∃ out, normalizeGraphMaxMin toDouble out_graph graph = .done out ∧
      out.size = graph.size ∧
      ∀ i j, i < graph.size → j < graph.size →
        ∃ val, graph.get i j = some val ∧ out.get i j =
          some (.finite ((toDouble val - toDouble min) / (toDouble max - toDouble min))) := by
  obtain ⟨out, hrun, hsize, hcells⟩ := normalizeGraphMaxMin_finite toDouble hsub out_graph
    graph hsq hpos max min hmax hmin (fun h => hne (hinj h))
  refine ⟨out, hrun, hsize, ?_⟩
  intro i j hi hj
  obtain ⟨val, hval⟩ := AMGraph.get_isSome graph hsq i j hi hj
  exact ⟨val, hval, hcells i j val hi hj hval⟩

/-- Witness of C9: the matrix 1 2 / 3 5 of integers, normalised into an output that held a
3 × 3 matrix; the cell (1, 0) becomes (3 - 1) / (5 - 1). -/
theorem normalizeGraphMaxMin_cells_witness :
    ∃ out, normalizeGraphMaxMin (fun x : Int => (x : ℚ)) (AMGraph.new 3)
        (⟨[[1, 2], [3, 5]], 2⟩ : AMGraph Int) = .done out ∧ out.size = 2 ∧
      ∃ val, (⟨[[1, 2], [3, 5]], 2⟩ : AMGraph Int).get 1 0 = some val ∧
        out.get 1 0 = some (.finite (((val : ℚ) - ((1 : Int) : ℚ)) /
          (((5 : Int) : ℚ) - ((1 : Int) : ℚ)))) := by
  obtain ⟨out, hrun, hsize, hcells⟩ :=
    normalizeGraphMaxMin_cells (fun x : Int => (x : ℚ)) (fun a b => Int.cast_sub a b)
      Int.cast_injective (AMGraph.new 3) (⟨[[1, 2], [3, 5]], 2⟩ : AMGraph Int)
      (by decide) (by decide) 5 1 sample_extrema.1 sample_extrema.2 (by decide)
  exact ⟨out, hrun, hsize, hcells 1 0 (by decide) (by decide)⟩

/-- C10: for a non-empty square graph whose greatest value differs from its least value,
and an exact, order-preserving conversion to `double`, every cell of the output of
`normalizeGraphMaxMin` lies in `[0, 1]`, every cell whose input is the greatest value
becomes exactly 1 and every cell whose input is the least value becomes exactly 0. -/
theorem normalizeGraphMaxMin_unit_interval {T : Type} [LinearOrder T] [Sub T]
    (toDouble : T → ℚ) (hsub : ∀ a b, toDouble (a - b) = toDouble a - toDouble b)
    (hmono : StrictMono toDouble)
    (out_graph : AMGraph Double) (graph : AMGraph T) (hsq : graph.Square)
    (hpos : 0 < graph.size) (max min : T)
    (hmax : IsGreatest graph.cells max) (hmin : IsLeast graph.cells min) (hne : max ≠ min) :
    ∃ out, normalizeGraphMaxMin toDouble out_graph graph = .done out ∧
      (∀ i j, i < graph.size → j < graph.size →
        ∃ q, out.get i j = some (.finite q) ∧ 0 ≤ q ∧ q ≤ 1) ∧
      (∀ i j, i < graph.size → j < graph.size → graph.get i j = some max →
        out.get i j = some (.finite 1)) ∧
      (∀ i j, i < graph.size → j < graph.size → graph.get i j = some min →
        out.get i j = some (.finite 0)) := by
  have hlt : toDouble min < toDouble max :=
    hmono (lt_of_le_of_ne (hmax.2 hmin.1) (Ne.symm hne))
  have hd : 0 < toDouble max - toDouble min := sub_pos.mpr hlt
  obtain ⟨out, hrun, -, hcells⟩ := normalizeGraphMaxMin_finite toDouble hsub out_graph
    graph hsq hpos max min hmax hmin (ne_of_gt hlt)
  refine ⟨out, hrun, ?_, ?_, ?_⟩
  · intro i j hi hj
    obtain ⟨val, hval⟩ := AMGraph.get_isSome graph hsq i j hi hj
    have hmem : val ∈ graph.cells := ⟨i, j, hi, hj, hval⟩
    have h1 : toDouble min ≤ toDouble val := hmono.monotone (hmin.2 hmem)
    have h2 : toDouble val ≤ toDouble max := hmono.monotone (hmax.2 hmem)
    refine ⟨_, hcells i j val hi hj hval, div_nonneg (by linarith) (le_of_lt hd), ?_⟩
    rw [div_le_one hd]
    linarith
  · intro i j hi hj hval
    rw [hcells i j max hi hj hval, div_self (ne_of_gt hd)]
  · intro i j hi hj hval
    rw [hcells i j min hi hj hval, sub_self, zero_div]

/-- Witness of C10: in the matrix 1 2 / 3 5 the cell (1, 1) holds the greatest value and
becomes 1, and the cell (0, 1) stays in the unit interval. -/
theorem normalizeGraphMaxMin_unit_interval_witness :
    ∃ out, normalizeGraphMaxMin (fun x : Int => (x : ℚ)) (AMGraph.new 0)
        (⟨[[1, 2], [3, 5]], 2⟩ : AMGraph Int) = .done out ∧
      (∃ q, out.get 0 1 = some (.finite q) ∧ 0 ≤ q ∧ q ≤ 1) ∧
      out.get 1 1 = some (.finite 1) ∧ out.get 0 0 = some (.finite 0) := by
  obtain ⟨out, hrun, hunit, hone, hzero⟩ :=
    normalizeGraphMaxMin_unit_interval (fun x : Int => (x : ℚ))
      (fun a b => Int.cast_sub a b) (fun _ _ h => Int.cast_lt.mpr h) (AMGraph.new 0)
      (⟨[[1, 2], [3, 5]], 2⟩ : AMGraph Int)
      (by decide) (by decide) 5 1 sample_extrema.1 sample_extrema.2 (by decide)
  exact ⟨out, hrun, hunit 0 1 (by decide) (by decide),
    hone 1 1 (by decide) (by decide) (by decide),
    hzero 0 0 (by decide) (by decide) (by decide)⟩

/-! ## Claims on the edge cases of the normalisation -/

/-- C11 as stated fails: on the 2 × 2 matrix whose cells all hold 3, `normalizeGraphMaxMin`
does not throw; it ends normally with an output whose cells are quotients by zero. -/
theorem normalizeGraphMaxMin_constant_returns :
    (normalizeGraphMaxMin (fun x : Int => (x : ℚ)) (AMGraph.new 3)
        (⟨[[3, 3], [3, 3]], 2⟩ : AMGraph Int)).failed = false ∧
      normalizeGraphMaxMin (fun x : Int => (x : ℚ)) (AMGraph.new 3)
        (⟨[[3, 3], [3, 3]], 2⟩ : AMGraph Int) =
        .done ⟨[[.nonfinite, .nonfinite], [.nonfinite, .nonfinite]], 2⟩ := by
  decide

/-- C11, amended: on a non-empty square graph in which all cells hold the same value, with
an exact conversion to `double`, `normalizeGraphMaxMin` does not fail: it ends normally with
an output of the size of the input in which every cell holds the non-finite result of a
division of zero by zero. -/
theorem normalizeGraphMaxMin_degenerate {T : Type} [LinearOrder T] [Sub T]
    (toDouble : T → ℚ) (hsub : ∀ a b, toDouble (a - b) = toDouble a - toDouble b)
    (out_graph : AMGraph Double) (graph : AMGraph T) (hsq : graph.Square)
    (hpos : 0 < graph.size) (c : T)
    (hall : ∀ i j, i < graph.size → j < graph.size → graph.get i j = some c) :
    ∃ out, normalizeGraphMaxMin toDouble out_graph graph = .done out ∧
      out.size = graph.size ∧
      ∀ i j, i < graph.size → j < graph.size → out.get i j = some .nonfinite := by
  obtain ⟨max, min, out, hmax, hmin, hrun, hsize, -, hcells⟩ :=
    normalizeGraphMaxMin_spec toDouble out_graph graph hsq hpos
  have hconst : ∀ v, v ∈ graph.cells → v = c := by
    rintro v ⟨i, j, hi, hj, hv⟩
    rw [hall i j hi hj] at hv
    exact (Option.some.inj hv).symm
  have e1 : max = c := hconst max hmax.1
  have e2 : min = c := hconst min hmin.1
  subst e1
  refine ⟨out, hrun, hsize, ?_⟩
  intro i j hi hj
  have hz : toDouble (max - min) = 0 := by rw [e2, hsub, sub_self]
  rw [hcells i j max hi hj (hall i j hi hj), Double.div, if_pos hz]

/-- Witness of C11, amended: the 2 × 2 matrix whose cells all hold 3. -/
theorem normalizeGraphMaxMin_degenerate_witness :
    ∃ out, normalizeGraphMaxMin (fun x : Int => (x : ℚ)) (AMGraph.new 0)
        (⟨[[3, 3], [3, 3]], 2⟩ : AMGraph Int) = .done out ∧ out.size = 2 ∧
      out.get 1 0 = some .nonfinite := by
  obtain ⟨out, hrun, hsize, hcells⟩ :=
    normalizeGraphMaxMin_degenerate (fun x : Int => (x : ℚ)) (fun a b => Int.cast_sub a b)
      (AMGraph.new 0) (⟨[[3, 3], [3, 3]], 2⟩ : AMGraph Int) (by decide) (by decide) 3
      (by
        intro i j hi hj
        simp only at hi hj
        interval_cases i <;> interval_cases j <;> rfl)
  exact ⟨out, hrun, hsize, hcells 1 0 (by decide) (by decide)⟩

/-- C12, at the failing input: on the graph of size 0 the first statement of
`normalizeGraphMaxMin` reads the cell (0, 0) of the empty matrix, so the call runs into
undefined behaviour; it neither throws nor ends normally, whatever `out_graph` holds. -/
theorem normalizeGraphMaxMin_empty_undefined {T : Type} [LinearOrder T] [Sub T]
    (toDouble : T → ℚ) (out_graph : AMGraph Double) :
    ({ graph := [], size := 0 } : AMGraph T).get 0 0 = none ∧
      normalizeGraphMaxMin toDouble out_graph ({ graph := [], size := 0 } : AMGraph T) =
        .undefined ∧
      (normalizeGraphMaxMin toDouble out_graph
        ({ graph := [], size := 0 } : AMGraph T)).failed = false := by
  refine ⟨rfl, rfl, rfl⟩

/-! ## Claims on the segmentation -/

/-- C13: on a square graph of size `n`, for all bounds and whatever `out_graph` held,
`segmentGraphEdgesBoolean` ends normally with a boolean graph of size `n` in which
`out[i][j]` is true exactly when `lower <= in[i][j] <= upper`; for the matrix
0 5 10 / 5 10 0 / 10 0 5 and the range [5, 10] the output is true at the cells holding 5 or
10 and false at the cells holding 0. -/
theorem segmentGraphEdgesBoolean_cells {T : Type} [LinearOrder T]
    (out_graph : AMGraph Bool) (graph : AMGraph T) (lower upper : T) (hsq : graph.Square) :
    (∃ out, segmentGraphEdgesBoolean out_graph graph lower upper = .done out ∧
      out.size = graph.size ∧
      ∀ i j, i < graph.size → j < graph.size →
        ∃ val, graph.get i j = some val ∧
          out.get i j = some (decide (lower ≤ val ∧ val ≤ upper))) ∧
    segmentGraphEdgesBoolean (AMGraph.new 0)
      (⟨[[0, 5, 10], [5, 10, 0], [10, 0, 5]], 3⟩ : AMGraph Int) 5 10 =
      .done ⟨[[false, true, true], [true, true, false], [true, false, true]], 3⟩ := by
  refine ⟨?_, by decide⟩
  obtain ⟨out, hrun, hsize, -, hcells⟩ :=
    segmentGraphEdgesBoolean_spec out_graph graph lower upper hsq
  refine ⟨out, hrun, hsize, ?_⟩
  intro i j hi hj
  obtain ⟨val, hval⟩ := AMGraph.get_isSome graph hsq i j hi hj
  exact ⟨val, hval, hcells i j val hi hj hval⟩

/-- Witness of C13: the matrix 1 7 / 4 9 and the range [4, 7], into an output that held a
3 × 3 matrix. -/
theorem segmentGraphEdgesBoolean_cells_witness :
    ∃ out, segmentGraphEdgesBoolean (AMGraph.new 3) (⟨[[1, 7], [4, 9]], 2⟩ : AMGraph Int)
        4 7 = .done out ∧ out.size = 2 ∧
      ∃ val, (⟨[[1, 7], [4, 9]], 2⟩ : AMGraph Int).get 0 1 = some val ∧
        out.get 0 1 = some (decide ((4 : Int) ≤ val ∧ val ≤ 7)) := by
  obtain ⟨⟨out, hrun, hsize, hcells⟩, -⟩ :=
    segmentGraphEdgesBoolean_cells (AMGraph.new 3) (⟨[[1, 7], [4, 9]], 2⟩ : AMGraph Int) 4 7
      (by decide)
  exact ⟨out, hrun, hsize, hcells 0 1 (by decide) (by decide)⟩

/-! ## Claims on both transforms -/

/-- C18: on a square input graph, whatever `out_graph` held, `segmentGraphEdgesBoolean`
(any size, 0 included) and `normalizeGraphMaxMin` (size at least 1) end normally: no `get`
reads outside the matrix and no `setEdge` takes its throwing branch, the only ways for these
calls not to end normally. -/
theorem transforms_stay_in_bounds {T : Type} [LinearOrder T] [Sub T] (graph : AMGraph T)
    (hsq : graph.Square) :
    (∀ (out_graph : AMGraph Bool) (inf_lim sup_lim : T),
      ∃ out, segmentGraphEdgesBoolean out_graph graph inf_lim sup_lim = .done out) ∧
    (0 < graph.size → ∀ (toDouble : T → ℚ) (out_graph : AMGraph Double),
      ∃ out, normalizeGraphMaxMin toDouble out_graph graph = .done out) := by
  constructor
  · intro out_graph inf_lim sup_lim
    obtain ⟨out, hrun, -⟩ := segmentGraphEdgesBoolean_spec out_graph graph inf_lim sup_lim hsq
    exact ⟨out, hrun⟩
  · intro hpos toDouble out_graph
    obtain ⟨-, -, out, -, -, hrun, -⟩ :=
      normalizeGraphMaxMin_spec toDouble out_graph graph hsq hpos
    exact ⟨out, hrun⟩

/-- Witness of C18: the segmentation of the empty graph and the normalisation of the
matrix 1 2 / 3 5, both into an output that held a 3 × 3 matrix. -/
theorem transforms_stay_in_bounds_witness :
    (∃ out, segmentGraphEdgesBoolean (AMGraph.new 3) (AMGraph.new 0 : AMGraph Int) 0 1 =
      .done out) ∧
    ∃ out, normalizeGraphMaxMin (fun x : Int => (x : ℚ)) (AMGraph.new 3)
      (⟨[[1, 2], [3, 5]], 2⟩ : AMGraph Int) = .done out :=
  ⟨(transforms_stay_in_bounds (AMGraph.new 0 : AMGraph Int) (by decide)).1
      (AMGraph.new 3) 0 1,
    (transforms_stay_in_bounds (⟨[[1, 2], [3, 5]], 2⟩ : AMGraph Int) (by decide)).2
      (by decide) (fun x : Int => (x : ℚ)) (AMGraph.new 3)⟩

/-- C19: on a square input graph with `in[i][j] == in[j][i]` for all `i, j < size`, the
output of `segmentGraphEdgesBoolean` has `out[i][j] == out[j][i]` for any bounds, and so has
the output of `normalizeGraphMaxMin` when the input is non-empty with `max != min` (with an
exact conversion to `double`, the two cells holding the same finite value). -/
theorem transforms_keep_symmetry {T : Type} [LinearOrder T] [Sub T] (graph : AMGraph T)
    (hsq : graph.Square)
    (hsym : ∀ i j, i < graph.size → j < graph.size → graph.get i j = graph.get j i) :
    (∀ (out_graph : AMGraph Bool) (inf_lim sup_lim : T),
      ∃ out, segmentGraphEdgesBoolean out_graph graph inf_lim sup_lim = .done out ∧
        ∀ i j, i < graph.size → j < graph.size →
          ∃ bit, out.get i j = some bit ∧ out.get j i = some bit) ∧
    (∀ (toDouble : T → ℚ) (out_graph : AMGraph Double) (max min : T),
      (∀ a b, toDouble (a - b) = toDouble a - toDouble b) → Function.Injective toDouble →
      0 < graph.size → IsGreatest graph.cells max → IsLeast graph.cells min → max ≠ min →
      ∃ out, normalizeGraphMaxMin toDouble out_graph graph = .done out ∧
        ∀ i j, i < graph.size → j < graph.size →
          ∃ q, out.get i j = some (.finite q) ∧ out.get j i = some (.finite q)) := by
  constructor
  · intro out_graph inf_lim sup_lim
    obtain ⟨out, hrun, -, -, hcells⟩ :=
      segmentGraphEdgesBoolean_spec out_graph graph inf_lim sup_lim hsq
    refine ⟨out, hrun, ?_⟩
    intro i j hi hj
    obtain ⟨val, hval⟩ := AMGraph.get_isSome graph hsq i j hi hj
    have hval' : graph.get j i = some val := by rw [← hsym i j hi hj, hval]
    exact ⟨_, hcells i j val hi hj hval, hcells j i val hj hi hval'⟩
  · intro toDouble out_graph max min hsub hinj hpos hmax hmin hne
    obtain ⟨out, hrun, -, hcells⟩ := normalizeGraphMaxMin_finite toDouble hsub out_graph
      graph hsq hpos max min hmax hmin (fun h => hne (hinj h))
    refine ⟨out, hrun, ?_⟩
    intro i j hi hj
    obtain ⟨val, hval⟩ := AMGraph.get_isSome graph hsq i j hi hj
    have hval' : graph.get j i = some val := by rw [← hsym i j hi hj, hval]
    exact ⟨_, hcells i j val hi hj hval, hcells j i val hj hi hval'⟩

/-- The symmetric matrix 1 2 / 2 5 and its extrema. -/
theorem symmetric_sample :
    (∀ i j, i < 2 → j < 2 → (⟨[[1, 2], [2, 5]], 2⟩ : AMGraph Int).get i j =
      (⟨[[1, 2], [2, 5]], 2⟩ : AMGraph Int).get j i) ∧
    IsGreatest (⟨[[1, 2], [2, 5]], 2⟩ : AMGraph Int).cells 5 ∧
      IsLeast (⟨[[1, 2], [2, 5]], 2⟩ : AMGraph Int).cells 1 := by
  refine ⟨?_, ⟨⟨1, 1, by decide, by decide, by decide⟩, ?_⟩,
    ⟨⟨0, 0, by decide, by decide, by decide⟩, ?_⟩⟩
  · intro i j hi hj
    interval_cases i <;> interval_cases j <;> rfl
  · rintro v ⟨i, j, hi, hj, hv⟩
    simp only at hi hj
    interval_cases i <;> interval_cases j <;>
      simp [AMGraph.get, readCell] at hv <;> omega
  · rintro v ⟨i, j, hi, hj, hv⟩
    simp only at hi hj
    interval_cases i <;> interval_cases j <;>
      simp [AMGraph.get, readCell] at hv <;> omega

/-- Witness of C19: the symmetric matrix 1 2 / 2 5, segmented on [2, 5] and normalised. -/
theorem transforms_keep_symmetry_witness :
    (∃ out, segmentGraphEdgesBoolean (AMGraph.new 0)
        (⟨[[1, 2], [2, 5]], 2⟩ : AMGraph Int) 2 5 = .done out ∧
      ∃ bit, out.get 0 1 = some bit ∧ out.get 1 0 = some bit) ∧
    ∃ out, normalizeGraphMaxMin (fun x : Int => (x : ℚ)) (AMGraph.new 0)
        (⟨[[1, 2], [2, 5]], 2⟩ : AMGraph Int) = .done out ∧
      ∃ q, out.get 0 1 = some (.finite q) ∧ out.get 1 0 = some (.finite q) := by
  have h := transforms_keep_symmetry (⟨[[1, 2], [2, 5]], 2⟩ : AMGraph Int) (by decide)
    symmetric_sample.1
  obtain ⟨out1, hrun1, hsym1⟩ := h.1 (AMGraph.new 0) 2 5
  obtain ⟨out2, hrun2, hsym2⟩ := h.2 (fun x : Int => (x : ℚ)) (AMGraph.new 0) 5 1
    (fun a b => Int.cast_sub a b) Int.cast_injective (by decide)
    symmetric_sample.2.1 symmetric_sample.2.2 (by decide)
  exact ⟨⟨out1, hrun1, hsym1 0 1 (by decide) (by decide)⟩,
    ⟨out2, hrun2, hsym2 0 1 (by decide) (by decide)⟩⟩

/-! ## Claims on the shape of the matrix -/

/-- One call of any of the mutating member functions keeps the matrix square, and does not
run into undefined behaviour. -/
theorem graphCall_square {GridT : Type} [Zero GridT] [Add GridT] (g : AMGraph GridT)
    (c : GraphCall GridT) (hsq : g.Square) :
    ∃ g', (graphCall g c).state? = some g' ∧ g'.Square := by
  cases c with
  | setEdge i j val =>
    by_cases hij : i < g.size ∧ j < g.size
    · obtain ⟨g', hrun, -, hsq', -⟩ := AMGraph.base_setEdge_spec g i j val hsq hij.1 hij.2
      exact ⟨g', by simp [graphCall, hrun, Exec.state?], hsq'⟩
    · exact ⟨g, by simp [graphCall, AMGraph.setEdge, hij, Exec.state?], hsq⟩
  | undirectedSetEdge i j val =>
    by_cases hij : i < g.size ∧ j < g.size
    · obtain ⟨g', hrun, -, hsq', -⟩ :=
        AMUndirectedGraph.undirected_setEdge_spec g i j val hsq hij.1 hij.2
      exact ⟨g', by simp [graphCall, hrun, Exec.state?], hsq'⟩
    · exact ⟨g, by simp [graphCall, AMUndirectedGraph.setEdge, hij, Exec.state?], hsq⟩
  | undirectedAddToEdge i j val =>
    by_cases hij : i < g.size ∧ j < g.size
    · obtain ⟨-, g', -, -, hrun, -, hsq'⟩ :=
        AMUndirectedGraph.undirected_addToEdge_spec g i j val hsq hij.1 hij.2
      exact ⟨g', by simp [graphCall, hrun, Exec.state?], hsq'⟩
    · exact ⟨g, by simp [graphCall, AMUndirectedGraph.addToEdge, hij, Exec.state?], hsq⟩
  | directedAddToEdge i j val =>
    by_cases hij : i < g.size ∧ j < g.size
    · obtain ⟨g', hrun, -, hsq', -⟩ :=
        AMDirectedGraph.directed_addToEdge_spec g i j val hsq hij.1 hij.2
      exact ⟨g', by simp [graphCall, hrun, Exec.state?], hsq'⟩
    · exact ⟨g, by simp [graphCall, AMDirectedGraph.addToEdge, hij, Exec.state?], hsq⟩
  | resize graph_size =>
    exact ⟨g.resize graph_size, rfl, AMGraph.square_resize g graph_size⟩

theorem runCalls_square {GridT : Type} [Zero GridT] [Add GridT] (g : AMGraph GridT)
    (calls : List (GraphCall GridT)) (hsq : g.Square) :
    ∃ g', runCalls g calls = some g' ∧ g'.Square := by
  induction calls generalizing g with
  | nil => exact ⟨g, rfl, hsq⟩
  | cons c cs ih =>
    obtain ⟨g1, hcall, hsq1⟩ := graphCall_square g c hsq
    obtain ⟨g', hrun, hsq'⟩ := ih g1 hsq1
    exact ⟨g', by simp [runCalls, hcall, hrun], hsq'⟩

/-- C16: every state reached from the construction of a graph of any size by calls of
`resize`, `setEdge` and `addToEdge` (of any of the three classes, failing calls included)
exists and is square: the matrix has exactly `size` rows and every row has exactly `size`
columns. -/
theorem reachable_square {GridT : Type} [Zero GridT] [Add GridT] (graph_size : Nat)
    (calls : List (GraphCall GridT)) :
    ∃ g, runCalls (AMGraph.new graph_size) calls = some g ∧
      g.graph.length = g.size ∧ ∀ row ∈ g.graph, row.length = g.size := by
  obtain ⟨g, hrun, hsq⟩ := runCalls_square (AMGraph.new graph_size : AMGraph GridT) calls
    (AMGraph.square_resize _ _)
  exact ⟨g, hrun, hsq.1, hsq.2⟩

/-- Witness of C16: a graph of size 2 after a write, a failing write, a growth to size 3
and two accumulations; its second row has three columns. -/
theorem reachable_square_witness :
    ∃ g, runCalls (AMGraph.new 2 : AMGraph Int)
        [.setEdge 0 1 5, .undirectedSetEdge 4 0 1, .resize 3, .directedAddToEdge 2 0 7,
          .undirectedAddToEdge 1 2 1] = some g ∧
      g.graph.length = g.size ∧ ([0, 0, 1] : List Int).length = g.size := by
  obtain ⟨g, hrun, hlen, hrows⟩ := reachable_square (2 : Nat)
    ([.setEdge 0 1 5, .undirectedSetEdge 4 0 1, .resize 3, .directedAddToEdge 2 0 7,
      .undirectedAddToEdge 1 2 1] : List (GraphCall Int))
  have hval : runCalls (AMGraph.new 2 : AMGraph Int)
      [.setEdge 0 1 5, .undirectedSetEdge 4 0 1, .resize 3, .directedAddToEdge 2 0 7,
        .undirectedAddToEdge 1 2 1] = some ⟨[[0, 0, 0], [0, 0, 1], [7, 1, 0]], 3⟩ := by
    decide
  have hg : g = ⟨[[0, 0, 0], [0, 0, 1], [7, 1, 0]], 3⟩ := by
    rw [hval] at hrun
    exact (Option.some.inj hrun).symm
  subst hg
  exact ⟨_, hrun, hlen, hrows [0, 0, 1] (by decide)⟩

/-! ## Claims on the degrees after writes -/

/-- The columns below `n` that belong to a list of distinct columns below `n` are as many
as the list is long. -/
theorem length_filter_range_mem (n : Nat) (cols : List Nat) (hnodup : cols.Nodup)
    (hlt : ∀ c ∈ cols, c < n) :
    ((List.range n).filter (fun c => decide (c ∈ cols))).length = cols.length := by
  apply List.Perm.length_eq
  rw [List.perm_ext_iff_of_nodup ((List.nodup_range n).filter _) hnodup]
  intro c
  simp only [List.mem_filter, List.mem_range, decide_eq_true_eq]
  exact ⟨fun h => h.2, fun h => ⟨hlt c h, h⟩⟩

/-- Writes into row `i` of an undirected graph, one per listed column with a value other
than zero, end normally and add exactly the listed columns to the cells of row `i` that
differ from zero. -/
theorem AMUndirectedGraph.run_row_writes {GridT : Type} [Zero GridT] [Add GridT]
    (n i : Nat) (edges : List (Nat × GridT)) (hi : i < n)
    (hlt : ∀ e ∈ edges, e.1 < n) (hval : ∀ e ∈ edges, e.2 ≠ 0)
    (g : AMGraph GridT) (hsq : g.Square) (hsize : g.size = n) (seen : List Nat)
    (hseen : ∀ c, c < n → (g.get i c ≠ some 0 ↔ c ∈ seen)) :
    ∃ g', AMUndirectedGraph.run g (edges.map (fun e => .setEdge i e.1 e.2)) = some g' ∧
      g'.Square ∧ g'.size = n ∧
      ∀ c, c < n → (g'.get i c ≠ some 0 ↔ c ∈ seen ∨ c ∈ edges.map Prod.fst) := by
  induction edges generalizing g seen with
  | nil => exact ⟨g, rfl, hsq, hsize, fun c hc => by simp [hseen c hc]⟩
  | cons e es ih =>
    have he : e.1 < n := hlt e (List.mem_cons_self _ _)
    have hv : e.2 ≠ 0 := hval e (List.mem_cons_self _ _)
    obtain ⟨g1, hrun1, hsize1, hsq1, hget1⟩ :=
      AMUndirectedGraph.undirected_setEdge_spec g i e.1 e.2 hsq (by omega) (by omega)
    have hseen1 : ∀ c, c < n → (g1.get i c ≠ some 0 ↔ c ∈ e.1 :: seen) := by
      intro c hc
      rw [hget1]
      by_cases hce : c = e.1
      · have hcond : (i = i ∧ c = e.1) ∨ (i = e.1 ∧ c = i) := Or.inl ⟨rfl, hce⟩
        rw [if_pos hcond]
        simp [hce, hv]
      · have hcond : ¬((i = i ∧ c = e.1) ∨ (i = e.1 ∧ c = i)) := by
          rintro (h | h)
          · exact hce h.2
          · exact hce (by rw [h.2, h.1])
        rw [if_neg hcond, hseen c hc]
        simp [hce]
    obtain ⟨g', hrun, hsq', hsize', hrow⟩ := ih
      (fun x hx => hlt x (List.mem_cons_of_mem _ hx))
      (fun x hx => hval x (List.mem_cons_of_mem _ hx))
      g1 hsq1 (by omega) (e.1 :: seen) hseen1
    refine ⟨g', ?_, hsq', hsize', ?_⟩
    · simp [AMUndirectedGraph.run, AMUndirectedGraph.call, hrun1, Exec.state?, hrun]
    · intro c hc
      rw [hrow c hc]
      simp only [List.mem_cons, List.map_cons]
      tauto

/-- C14: on a freshly constructed undirected graph of size `n`, with the sentinel 0 and an
empty output sequence, `getGraphDegree` reports 0 for every vertex; and after the writes
`setEdge(i, j_m, v_m)` for distinct columns `j_1 .. j_k < n` with every `v_m != 0`, and no
other write, it reports the degree `k` for the vertex `i`. -/
theorem AMUndirectedGraph.degree_after_writes {GridT : Type} [Zero GridT] [Add GridT]
    [DecidableEq GridT] (n i : Nat) (edges : List (Nat × GridT)) (hi : i < n)
    (hcols : (edges.map Prod.fst).Nodup)
    (hlt : ∀ e ∈ edges, e.1 < n) (hval : ∀ e ∈ edges, e.2 ≠ 0) :
    AMUndirectedGraph.getGraphDegree (AMGraph.new n : AMGraph GridT) [] 0 =
      List.replicate n 0 ∧
    ∃ g, AMUndirectedGraph.run (AMGraph.new n : AMGraph GridT)
        (edges.map (fun e => .setEdge i e.1 e.2)) = some g ∧
      (AMUndirectedGraph.getGraphDegree g [] 0)[i]? = some edges.length := by
  have hsq0 : (AMGraph.new n : AMGraph GridT).Square := AMGraph.square_resize _ _
  have hsize0 : (AMGraph.new n : AMGraph GridT).size = n := by
    rw [AMGraph.new, AMGraph.resize_eq]
  have hget0 : ∀ a b, a < n → b < n → (AMGraph.new n : AMGraph GridT).get a b = some 0 := by
    intro a b ha hb
    rw [AMGraph.new, AMGraph.get_resize, if_pos ⟨ha, hb⟩]
  constructor
  · rw [AMUndirectedGraph.getGraphDegree_appends _ _ _ hsq0, hsize0, List.nil_append]
    apply List.ext_getElem?
    intro m
    rw [List.getElem?_map, List.getElem?_replicate]
    by_cases hm : m < n
    · rw [List.getElem?_range hm, if_pos hm]
      simp only [Option.map_some', Option.some.injEq, List.length_eq_zero,
        List.filter_eq_nil_iff, List.mem_range, decide_eq_true_eq, not_not]
      intro b hb
      exact hget0 m b hm hb
    · rw [List.getElem?_eq_none (by simpa using (by omega : n ≤ m)), if_neg hm]
      rfl
  · obtain ⟨g, hrun, hsq, hsize, hrow⟩ :=
      AMUndirectedGraph.run_row_writes n i edges hi hlt hval (AMGraph.new n) hsq0 hsize0 []
        (fun c hc => by simp [hget0 i c hi hc])
    refine ⟨g, hrun, ?_⟩
    rw [AMUndirectedGraph.getGraphDegree_appends _ _ _ hsq, hsize, List.nil_append,
      List.getElem?_map, List.getElem?_range hi]
    simp only [Option.map_some', Option.some.injEq]
    have hcongr : (List.range n).filter (fun j => decide (g.get i j ≠ some 0)) =
        (List.range n).filter (fun j => decide (j ∈ edges.map Prod.fst)) := by
      apply List.filter_congr
      intro c hc
      have hc' : c < n := List.mem_range.mp hc
      have := hrow c hc'
      simp only [List.not_mem_nil, false_or] at this
      exact decide_eq_decide.mpr this
    rw [hcongr, length_filter_range_mem n _ hcols, List.length_map]
    intro c hc
    obtain ⟨e, he, rfl⟩ := List.mem_map.mp hc
    exact hlt e he

/-- Witness of C14: on a fresh graph of size 4, writes into the columns 3, 1 and 2 of row 1
give the degree 3 to vertex 1. -/
theorem AMUndirectedGraph.degree_after_writes_witness :
    AMUndirectedGraph.getGraphDegree (AMGraph.new 4 : AMGraph Int) [] 0 =
      List.replicate 4 0 ∧
    ∃ g, AMUndirectedGraph.run (AMGraph.new 4 : AMGraph Int)
        (([(3, 5), (1, 2), (2, -1)] : List (Nat × Int)).map
          (fun e => .setEdge 1 e.1 e.2)) = some g ∧
      (AMUndirectedGraph.getGraphDegree g [] 0)[1]? =
        some ([(3, 5), (1, 2), (2, -1)] : List (Nat × Int)).length :=
  AMUndirectedGraph.degree_after_writes 4 1 ([(3, 5), (1, 2), (2, -1)] : List (Nat × Int))
    (by decide) (by decide) (by decide) (by decide)

end aux

/-! ## Claims on the vector helpers -/

namespace utils

open aux

section VectorClaims

variable {T : Type}

theorem distanceStep_done [Sub T] (addPow : T → T → T) (v1 v2 : List T) (i : Nat) (dist : T)
    (h1 : i < v1.length) (h2 : i < v2.length) :
    distanceStep addPow v1 v2 i dist = .done (addPow dist (v1[i] - v2[i])) := by
  simp [distanceStep, List.getElem?_eq_getElem h1, List.getElem?_eq_getElem h2]

/-- C15: the two-vector `euclidianDistance` throws exactly when `v1` and `v2` have different
lengths; a call that throws leaves `dist` as it was, and a call on vectors of equal lengths
ends normally, so it neither throws nor indexes a vector out of range. -/
theorem euclidianDistance_throws_iff [Zero T] [Sub T] (addPow : T → T → T) (sqrt : T → T)
    (dist : T) (v1 v2 : List T) :
    ((euclidianDistance addPow sqrt dist v1 v2).failed = true ↔ v1.length ≠ v2.length) ∧
      ((euclidianDistance addPow sqrt dist v1 v2).failed = true →
        (euclidianDistance addPow sqrt dist v1 v2).state? = some dist) ∧
      (v1.length = v2.length →
        ∃ d, euclidianDistance addPow sqrt dist v1 v2 = .done d) := by
  by_cases hlen : v1.length = v2.length
  · obtain ⟨d, hd, -⟩ := forExec_invariant (fun _ _ => True) v1.length
      (distanceStep addPow v1 v2) (0 : T) trivial
      (fun k t hk _ => ⟨_, distanceStep_done addPow v1 v2 k t hk (by omega), trivial⟩)
    have hrun : euclidianDistance addPow sqrt dist v1 v2 = .done (sqrt d) := by
      unfold euclidianDistance
      simp only [ne_eq, hlen, not_true_eq_false, if_false]
      rw [← hlen, hd]
      rfl
    rw [hrun]
    exact ⟨⟨fun h => absurd h (by simp [Exec.failed]), fun h => absurd hlen h⟩,
      fun h => absurd h (by simp [Exec.failed]), fun _ => ⟨_, rfl⟩⟩
  · have hrun : euclidianDistance addPow sqrt dist v1 v2 =
        .thrown "v1 and v2 must have the same size" dist := by
      unfold euclidianDistance
      simp only [ne_eq, hlen, not_false_eq_true, if_true]
    rw [hrun]
    exact ⟨⟨fun _ => hlen, fun _ => rfl⟩, fun _ => rfl, fun h => absurd h hlen⟩

/-- Witness of C15: vectors of lengths 2 and 1 leave `dist` at 7, and vectors of equal
lengths give a result. -/
theorem euclidianDistance_throws_iff_witness :
    (euclidianDistance (fun d x => d + x * x) (fun x => x) (7 : Int) [1, 2] [3]).state? =
        some 7 ∧
      ∃ d, euclidianDistance (fun d x => d + x * x) (fun x => x) (7 : Int) [1, 2] [3, 5] =
        .done d :=
  ⟨(euclidianDistance_throws_iff (fun d x => d + x * x) (fun x => x) (7 : Int)
      [1, 2] [3]).2.1 (by decide),
    (euclidianDistance_throws_iff (fun d x => d + x * x) (fun x => x) (7 : Int)
      [1, 2] [3, 5]).2.2 (by decide)⟩

/-- The loop of `getVectorMaxMin` from any pair `(max, min)`: each component is the seed
or an element, and bounds the seed and every element. -/
theorem foldl_maxMin [LinearOrder T] (v : List T) (a b : T) :
    let r := v.foldl
      (fun acc elem =>
        (if acc.1 < elem then elem else acc.1, if acc.2 > elem then elem else acc.2)) (a, b)
    (r.1 = a ∨ r.1 ∈ v) ∧ a ≤ r.1 ∧ (∀ x ∈ v, x ≤ r.1) ∧
      (r.2 = b ∨ r.2 ∈ v) ∧ r.2 ≤ b ∧ (∀ x ∈ v, r.2 ≤ x) := by
  induction v generalizing a b with
  | nil => simp
  | cons e es ih =>
    obtain ⟨h1, h2, h3, h4, h5, h6⟩ :=
      ih (if a < e then e else a) (if b > e then e else b)
    have ha : a ≤ (if a < e then e else a) := by
      split_ifs with hc
      · exact le_of_lt hc
      · exact le_refl a
    have he : e ≤ (if a < e then e else a) := by
      split_ifs with hc
      · exact le_refl e
      · exact not_lt.mp hc
    have hb : (if b > e then e else b) ≤ b := by
      split_ifs with hc
      · exact le_of_lt hc
      · exact le_refl b
    have he' : (if b > e then e else b) ≤ e := by
      split_ifs with hc
      · exact le_refl e
      · exact not_lt.mp hc
    simp only [List.foldl_cons, List.mem_cons]
    refine ⟨?_, le_trans ha h2, ?_, ?_, le_trans h5 hb, ?_⟩
    · rcases h1 with h | h
      · rw [h]
        split_ifs
        · exact Or.inr (Or.inl rfl)
        · exact Or.inl rfl
      · exact Or.inr (Or.inr h)
    · rintro x (hx | hx)
      · rw [hx]
        exact le_trans he h2
      · exact h3 x hx
    · rcases h4 with h | h
      · rw [h]
        split_ifs
        · exact Or.inr (Or.inl rfl)
        · exact Or.inl rfl
      · exact Or.inr (Or.inr h)
    · rintro x (hx | hx)
      · rw [hx]
        exact le_trans h5 he'
      · exact h6 x hx

/-- C20: over a bounded element type (every element lies between the type's lowest and
highest value, and these differ), `getVectorMaxMin` on a non-empty vector returns as `max`
the greatest and as `min` the least element of the vector; on the empty vector it returns
the lowest value as `max` and the highest as `min`, so `max < min`. -/
theorem getVectorMaxMin_extrema [LinearOrder T] (lowest highest : T) (v : List T)
    (hlt : lowest < highest) (hbound : ∀ x ∈ v, lowest ≤ x ∧ x ≤ highest) :
    (v ≠ [] →
      IsGreatest {x | x ∈ v} (getVectorMaxMin lowest highest v).1 ∧
        IsLeast {x | x ∈ v} (getVectorMaxMin lowest highest v).2) ∧
    getVectorMaxMin lowest highest [] = (lowest, highest) ∧
    (getVectorMaxMin lowest highest []).1 < (getVectorMaxMin lowest highest []).2 := by
  refine ⟨?_, rfl, hlt⟩
  intro hne
  obtain ⟨h1, -, h3, h4, -, h6⟩ := foldl_maxMin v lowest highest
  obtain ⟨y, hy⟩ := List.exists_mem_of_ne_nil v hne
  refine ⟨⟨?_, fun x hx => h3 x hx⟩, ⟨?_, fun x hx => h6 x hx⟩⟩
  · rcases h1 with h | h
    · have hyl : y = lowest := le_antisymm (h ▸ h3 y hy) (hbound y hy).1
      show (getVectorMaxMin lowest highest v).1 ∈ v
      unfold getVectorMaxMin
      rw [h, ← hyl]
      exact hy
    · exact h
  · rcases h4 with h | h
    · have hyh : y = highest := le_antisymm (hbound y hy).2 (h ▸ h6 y hy)
      show (getVectorMaxMin lowest highest v).2 ∈ v
      unfold getVectorMaxMin
      rw [h, ← hyh]
      exact hy
    · exact h

/-- Witness of C20: the vector 3, -5, 9 over the 8-bit signed integers. -/
theorem getVectorMaxMin_extrema_witness :
    IsGreatest {x | x ∈ ([3, -5, 9] : List Int)}
        (getVectorMaxMin (-128) 127 ([3, -5, 9] : List Int)).1 ∧
      IsLeast {x | x ∈ ([3, -5, 9] : List Int)}
        (getVectorMaxMin (-128) 127 ([3, -5, 9] : List Int)).2 :=
  (getVectorMaxMin_extrema (-128 : Int) 127 [3, -5, 9] (by decide) (by decide)).1
    (by decide)

end VectorClaims

end utils
